import Mathlib

/-!
# quicklist: an unrolled singly-linked list (src/quicklist.c)

Shallow embedding.

* A node `struct quicklist { next; num_elements; elements[QL_MAXSIZE]; }` is
  modelled by the list of its occupied slots `elements[0 .. num_elements-1]`,
  so `num_elements` is the length of that list.  The array has `QL_MAXSIZE`
  slots, hence a node that exists in C holds at most `QL_MAXSIZE` elements;
  theorems state this bound as a hypothesis where they need it.
* A chain (`quicklist *`, possibly `NULL`) is the list of its nodes in `next`
  order; `NULL` is `[]`.  A pointer to a node is the sub-chain starting there.
* `void *` elements are values of a type `α`; the set layer compares them with
  `<`, so there `α` carries a linear order.
* `int` values are `Int`; chains are taken short enough for `int` arithmetic
  on counts and in-range indices not to overflow.  The one sum of two values
  supplied by the caller, `i + stride` in `ql_advance`, is checked against
  `INT_MAX` (32-bit `int`): beyond it the addition is undefined behaviour.
* A function whose C body can run into undefined behaviour (dereferencing
  `NULL`, indexing outside the occupied slots, `memmove` with a negative
  length) returns `Option`: `none` is undefined behaviour, `some r` is a
  normal return.
* `malloc` is assumed to succeed.
-/

namespace Quicklist

/-- Capacity of a node: `#define QL_MAXSIZE 14`. -/
@[simp] abbrev QL_MAXSIZE : Nat := 14

/-- Merge threshold: `#define QL_LIMIT 7`. -/
@[simp] abbrev QL_LIMIT : Nat := 7

/-- Value of `EINVAL` from `<errno.h>`. -/
@[simp] abbrev EINVAL : Int := 22

/-- Value of `ERANGE` from `<errno.h>`. -/
@[simp] abbrev ERANGE : Int := 34

/-- A chain of nodes; each node is the list of its occupied slots. -/
abbrev quicklist (α : Type) := List (List α)

variable {α : Type} {σ : Type}

/-! ## The operations of src/quicklist.c -/

/-- Model of `ql_get`: `none` is undefined behaviour (the `ql->next` read on a
`NULL` chain, or an index outside the occupied slots). -/
def ql_get : quicklist α → Int → Option α
  | [], _ => none
  | ql :: next, index =>
    if index < (ql.length : Int) then
      (if 0 ≤ index then ql[index.toNat]? else none)
    else ql_get next (index - (ql.length : Int))

/-- Model of `ql_length`. -/
def ql_length : quicklist α → Int
  | [] => 0
  | ql :: next => (ql.length : Int) + ql_length next

/-- Model of `ql_empty`. -/
def ql_empty (ql : quicklist α) : Bool := ql.isEmpty

/-- Model of `ql_push`: the new chain and the returned node (as the sub-chain
starting at it). -/
def ql_push : quicklist α → α → quicklist α × quicklist α
  | [], data => ([[data]], [[data]])
  | ql :: next, data =>
    if next.isEmpty = false ∨ ql.length = QL_MAXSIZE then
      let r := ql_push next data
      (ql :: r.1, r.2)
    else ((ql ++ [data]) :: next, (ql ++ [data]) :: next)

/-- Model of `ql_delete`: return code and the new chain. -/
def ql_delete : quicklist α → Int → Int × quicklist α
  | [], index => if index < 0 then (EINVAL, []) else (0, [])
  | ql :: next, index =>
    if index < 0 then (EINVAL, ql :: next)
    else if index ≥ (ql.length : Int) then
      let r := ql_delete next (index - (ql.length : Int))
      (r.1, ql :: r.2)
    else
      let ql1 := ql.take index.toNat ++ ql.drop (index.toNat + 1)
      if ql1.length = 0 then (0, next)
      else
        match next with
        | [] => (0, [ql1])
        | qn :: rest =>
          if ql1.length ≤ QL_LIMIT then
            if ql1.length + qn.length > QL_MAXSIZE then
              (0, (ql1 ++ qn.take 1) :: qn.drop 1 :: rest)
            else (0, (ql1 ++ qn) :: rest)
          else (0, ql1 :: qn :: rest)

/-- Termination weight of a node for `ql_insert`: a full node weighs more than
the two halves a split leaves. -/
def nodeWeight (ql : List α) : Nat :=
  if ql.length < QL_MAXSIZE then 1 else 2 * ql.length

/-- Termination weight of a chain for `ql_insert`. -/
def chainWeight : quicklist α → Nat
  | [] => 0
  | ql :: next => nodeWeight ql + chainWeight next

/-- Model of `ql_insert`: `none` is undefined behaviour (the `memmove` of the
non-full branch with `index` outside `0 .. num_elements`), `some (rc, chain)` a
normal return.  On a full node the last `num_elements - QL_LIMIT` slots go to
the new node `qn` and the call is retried. -/
def ql_insert (qlp : quicklist α) (index : Int) (data : α) : Option (Int × quicklist α) :=
  match qlp with
  | ql :: next =>
    if index ≥ (QL_MAXSIZE : Int) then
      (ql_insert next (index - (ql.length : Int)) data).map (fun r => (r.1, ql :: r.2))
    else if ql.length < QL_MAXSIZE then
      if 0 ≤ index ∧ index ≤ (ql.length : Int) then
        some (0, (ql.take index.toNat ++ data :: ql.drop index.toNat) :: next)
      else none
    else
      let qn := ql.drop QL_LIMIT
      let ql1 := ql.take QL_LIMIT
      if index ≤ (QL_LIMIT : Int) then ql_insert (ql1 :: qn :: next) index data
      else (ql_insert (qn :: next) (index - (QL_LIMIT : Int)) data).map (fun r => (r.1, ql1 :: r.2))
  | [] => if index = 0 then some (0, (ql_push [] data).1) else some (EINVAL, [])
termination_by chainWeight qlp
decreasing_by
  · simp only [chainWeight, nodeWeight, QL_MAXSIZE]
    split <;> omega
  · rename_i h _
    have h7 : (ql.take QL_LIMIT).length = 7 := by
      rw [List.length_take]
      simp only [QL_MAXSIZE, QL_LIMIT] at *
      omega
    simp only [chainWeight, nodeWeight, h7, List.length_drop, QL_MAXSIZE, QL_LIMIT] at *
    split_ifs <;> omega
  · rename_i h _
    simp only [chainWeight, nodeWeight, List.length_drop, QL_MAXSIZE, QL_LIMIT] at *
    split_ifs <;> omega

/-- Model of `ql_foreach`: the callback acts on a state `σ`. -/
def ql_foreach (cb : α → σ → σ) : quicklist α → σ → σ
  | [], s => s
  | ql :: next, s => ql_foreach cb next (ql.foldl (fun t e => cb e t) s)

/-- The sequence of elements `ql_foreach` hands to its callback, in order. -/
def visited (l : quicklist α) : List α :=
  ql_foreach (fun e log => log ++ [e]) l []

/-- The test `ql->next && ql->next->elements[0] <= data` of `ql_set_insert`;
`none` when the next node exists and its slot 0 is not occupied. -/
def next_first_le [LinearOrder α] (next : quicklist α) (data : α) : Option Bool :=
  match next with
  | [] => some false
  | [] :: _ => none
  | (e0 :: _) :: _ => some (decide (e0 ≤ data))

/-- The scan loop of `ql_set_insert` over the slots `i, i+1, ..` (`es`) of the
head node of `qlp`; when the loop ends without a hit the function falls through
to `ql_push`. -/
def ql_set_insert_loop [LinearOrder α] (qlp : quicklist α) (data : α) :
    List α → Int → Option (Int × quicklist α)
  | [], _ => some (0, (ql_push qlp data).1)
  | e :: es, i =>
    if data < e then (ql_insert qlp i data).map (fun r => (0, r.2))
    else if data = e then some (1, qlp)
    else ql_set_insert_loop qlp data es (i + 1)

/-- Model of `ql_set_insert`: return code and the new chain. -/
def ql_set_insert [LinearOrder α] : quicklist α → α → Option (Int × quicklist α)
  | [], data => some (0, (ql_push [] data).1)
  | ql :: next, data =>
    match ql.getLast? with
    | some last =>
      if last < data then
        if ql.length = QL_MAXSIZE then
          (ql_set_insert next data).map (fun r => (r.1, ql :: r.2))
        else
          match next_first_le next data with
          | none => none
          | some true => (ql_set_insert next data).map (fun r => (r.1, ql :: r.2))
          | some false => some (0, (ql ++ [data]) :: next)
      else ql_set_insert_loop (ql :: next) data ql 0
    | none => ql_set_insert_loop (ql :: next) data ql 0

/-- The `while` loop of `ql_set_find`: skip the nodes whose last element is
below `data`; `none` when a node has no last element (`elements[-1]`). -/
def ql_set_find_skip [LinearOrder α] : quicklist α → α → Option (quicklist α)
  | [], _ => some []
  | ql :: next, data =>
    match ql.getLast? with
    | none => none
    | some last => if last < data then ql_set_find_skip next data else some (ql :: next)

/-- The `for` loop of `ql_set_find` over the slots `qi, qi+1, ..` (`es`):
the offset of the hit, if any. -/
def ql_set_find_scan [LinearOrder α] : List α → Int → α → Option Int
  | [], _, _ => none
  | e :: es, qi, data =>
    if e > data then none
    else if e = data then some qi
    else ql_set_find_scan es (qi + 1) data

/-- Model of `ql_set_find`.  `qip` is `none` for a `NULL` pointer, else the
current value of `*qip`.  Result: return code, `*qlp` and `*qip` afterwards. -/
def ql_set_find [LinearOrder α] (qlp : quicklist α) (qip : Option Int) (data : α) :
    Option (Int × quicklist α × Option Int) :=
  match ql_set_find_skip qlp data with
  | none => none
  | some [] => some (0, qlp, qip)
  | some (ql :: next) =>
    match ql_set_find_scan ql 0 data with
    | none => some (0, qlp, qip)
    | some qi =>
      match qip with
      | some _ => some (1, ql :: next, some qi)
      | none => some (1, qlp, none)

/-- Model of `ql_replace`: the previous element and the new chain; `none` is
undefined behaviour, as for `ql_get`. -/
def ql_replace : quicklist α → Int → α → Option (α × quicklist α)
  | [], _, _ => none
  | ql :: next, index, data =>
    if index < (ql.length : Int) then
      (if 0 ≤ index then
        (ql[index.toNat]?).map (fun orig => (orig, ql.set index.toNat data :: next))
       else none)
    else (ql_replace next (index - (ql.length : Int)) data).map (fun r => (r.1, ql :: r.2))

/-- Largest value of a 32-bit `int`. -/
@[simp] abbrev INT_MAX : Int := 2147483647

/-- Model of `ql_advance`: return code, `*iterator` and `*index` afterwards;
`none` when the addition `i + stride` overflows `int`. -/
def ql_advance : quicklist α → Int → Int → Option (Int × quicklist α × Int)
  | [], i, _ => some (ERANGE, [], i)
  | ql :: next, i, stride =>
    if i < 0 ∨ stride < 0 then some (ERANGE, ql :: next, i)
    else if i + stride > INT_MAX then none
    else if i + stride < (ql.length : Int) then some (0, ql :: next, i + stride)
    else ql_advance next (i - (ql.length : Int) + stride) 0

/-- The scan loop of `ql_set_remove` over the head node of `qlp`, with `n`
iterations left, at offset `qi`.  Result: `none` is undefined behaviour (of the
`ql_get` call), `some none` the end of the loop without a hit, `some (some r)`
the `return` inside the loop. -/
def ql_set_remove_loop [DecidableEq α] (qlp : quicklist α) (data : α) :
    Nat → Int → Option (Option (Int × quicklist α))
  | 0, _ => some none
  | n + 1, qi =>
    match ql_get qlp qi with
    | none => none
    | some qd =>
      if qd = data then
        some (some (if (ql_delete qlp qi).1 = 0 then 1 else 0, (ql_delete qlp qi).2))
      else ql_set_remove_loop qlp data n (qi + 1)

/-- Model of `ql_set_remove`: return code and the new chain. -/
def ql_set_remove [DecidableEq α] : quicklist α → α → Option (Int × quicklist α)
  | [], _ => some (0, [])
  | ql :: next, data =>
    match ql_set_remove_loop (ql :: next) data ql.length 0 with
    | none => none
    | some (some r) => some r
    | some none => (ql_set_remove next data).map (fun r => (r.1, ql :: r.2))

/-- Ghost instrumentation of `ql_insert`: the number of invocations of
`ql_insert` a call makes (itself included) and the number of times the split
branch is entered.  Same branches and the same recursive calls as `ql_insert`. -/
def ql_insert_cost (qlp : quicklist α) (index : Int) : Nat × Nat :=
  match qlp with
  | ql :: next =>
    if index ≥ (QL_MAXSIZE : Int) then
      let c := ql_insert_cost next (index - (ql.length : Int))
      (c.1 + 1, c.2)
    else if ql.length < QL_MAXSIZE then (1, 0)
    else
      let qn := ql.drop QL_LIMIT
      let ql1 := ql.take QL_LIMIT
      if index ≤ (QL_LIMIT : Int) then
        let c := ql_insert_cost (ql1 :: qn :: next) index
        (c.1 + 1, c.2 + 1)
      else
        let c := ql_insert_cost (qn :: next) (index - (QL_LIMIT : Int))
        (c.1 + 1, c.2 + 1)
  | [] => (1, 0)
termination_by chainWeight qlp
decreasing_by
  · simp only [chainWeight, nodeWeight, QL_MAXSIZE]
    split <;> omega
  · rename_i h _
    have h7 : (ql.take QL_LIMIT).length = 7 := by
      rw [List.length_take]
      simp only [QL_MAXSIZE, QL_LIMIT] at *
      omega
    simp only [chainWeight, nodeWeight, h7, List.length_drop, QL_MAXSIZE, QL_LIMIT] at *
    split_ifs <;> omega
  · rename_i h _
    simp only [chainWeight, nodeWeight, List.length_drop, QL_MAXSIZE, QL_LIMIT] at *
    split_ifs <;> omega

/-- Pushing the elements of `xs` one after the other, first element first. -/
def push_all (l : quicklist α) (xs : List α) : quicklist α :=
  xs.foldl (fun acc x => (ql_push acc x).1) l

/-- The walk rule of `push` as the specification words it: walk while the
current node is full and has a successor, allocate a node only when no node
exists at that point, store the element in the next free slot of the node
reached.  Result as for `ql_push`. -/
def push_as_specified : quicklist α → α → quicklist α × quicklist α
  | [], data => ([[data]], [[data]])
  | ql :: next, data =>
    if ql.length = QL_MAXSIZE ∧ next.isEmpty = false then
      let r := push_as_specified next data
      (ql :: r.1, r.2)
    else ((ql ++ [data]) :: next, (ql ++ [data]) :: next)

/-- The lists that can be built from the empty list by calls of `ql_push`,
`ql_insert`, `ql_delete`, `ql_set_insert` and `ql_set_remove` that return
normally, `ql_insert` and `ql_delete` with return code 0. -/
inductive Reachable [LinearOrder α] : quicklist α → Prop
  | empty : Reachable []
  | push (l : quicklist α) (x : α) : Reachable l → Reachable (ql_push l x).1
  | insert (l : quicklist α) (i : Int) (x : α) (r : quicklist α) :
      Reachable l → ql_insert l i x = some (0, r) → Reachable r
  | delete (l : quicklist α) (i : Int) :
      Reachable l → (ql_delete l i).1 = 0 → Reachable (ql_delete l i).2
  | set_insert (l : quicklist α) (v : α) (rc : Int) (r : quicklist α) :
      Reachable l → ql_set_insert l v = some (rc, r) → Reachable r
  | set_remove (l : quicklist α) (v : α) (rc : Int) (r : quicklist α) :
      Reachable l → ql_set_remove l v = some (rc, r) → Reachable r

/-! ## Invariants -/

/-- The density invariant: every node except the last holds 8..14 elements,
the last 1..14; the empty chain has no node. -/
def density : quicklist α → Prop
  | [] => True
  | [ql] => 1 ≤ ql.length ∧ ql.length ≤ QL_MAXSIZE
  | ql :: qn :: next => QL_LIMIT < ql.length ∧ ql.length ≤ QL_MAXSIZE ∧ density (qn :: next)

/-- The invariant the code keeps: every node except the last holds 7..14
elements, the last 1..14. -/
def density7 : quicklist α → Prop
  | [] => True
  | [ql] => 1 ≤ ql.length ∧ ql.length ≤ QL_MAXSIZE
  | ql :: qn :: next => QL_LIMIT ≤ ql.length ∧ ql.length ≤ QL_MAXSIZE ∧ density7 (qn :: next)

/-- Every node holds at most `QL_MAXSIZE` elements. -/
def bounded (l : quicklist α) : Prop := ∀ ql ∈ l, ql.length ≤ QL_MAXSIZE

/-- No node is empty. -/
def nonempty_nodes (l : quicklist α) : Prop := ∀ ql ∈ l, ql ≠ []

/-- The shape of a list built by pushes only: every node except the last is
full, the last holds 1..14 elements. -/
def packed (l : quicklist α) : Prop :=
  ∃ init last, l = init ++ [last] ∧ (∀ nd ∈ init, nd.length = QL_MAXSIZE) ∧
    1 ≤ last.length ∧ last.length ≤ QL_MAXSIZE

/-- The sequence `new` is `old` with `v` put between the elements below `v` and
the elements above `v`. -/
def InsertedAt [LinearOrder α] (old new : List α) (v : α) : Prop :=
  ∃ a b, old = a ++ b ∧ new = a ++ v :: b ∧ (∀ y ∈ a, y < v) ∧ (∀ y ∈ b, v < y)

/-! ## Basic facts -/

theorem foreach_log (l : quicklist α) (acc : List α) :
    ql_foreach (fun e log => log ++ [e]) l acc = acc ++ l.flatten := by
  induction l generalizing acc with
  | nil => simp [ql_foreach]
  | cons ql next ih =>
    have h : ∀ (xs acc : List α), xs.foldl (fun t e => t ++ [e]) acc = acc ++ xs := by
      intro xs
      induction xs with
      | nil => simp
      | cons x xs ihx =>
        intro acc
        simp [ihx]
    simp [ql_foreach, ih, h]

theorem visited_eq_flatten (l : quicklist α) : visited l = l.flatten := by
  simp [visited, foreach_log]

@[simp] theorem visited_nil : visited ([] : quicklist α) = [] := by
  simp [visited_eq_flatten]

@[simp] theorem visited_cons (ql : List α) (next : quicklist α) :
    visited (ql :: next) = ql ++ visited next := by
  simp [visited_eq_flatten]

theorem visited_append (p q : quicklist α) : visited (p ++ q) = visited p ++ visited q := by
  simp [visited_eq_flatten]

theorem ql_length_eq (l : quicklist α) : ql_length l = ((visited l).length : Int) := by
  induction l with
  | nil => simp [ql_length]
  | cons ql next ih => simp [ql_length, ih]

theorem ql_length_nonneg (l : quicklist α) : 0 ≤ ql_length l := by
  rw [ql_length_eq]
  exact Int.natCast_nonneg _

theorem bounded_cons {ql : List α} {next : quicklist α} :
    bounded (ql :: next) ↔ ql.length ≤ QL_MAXSIZE ∧ bounded next := by
  simp [bounded]

theorem nonempty_nodes_cons {ql : List α} {next : quicklist α} :
    nonempty_nodes (ql :: next) ↔ ql ≠ [] ∧ nonempty_nodes next := by
  simp [nonempty_nodes]

theorem density_bounded : ∀ (l : quicklist α), density l → bounded l
  | [], _ => by simp [bounded]
  | [ql], h => by
    simp only [density] at h
    simp [bounded, h.2]
  | ql :: qn :: next, h => by
    simp only [density] at h
    rw [bounded_cons]
    exact ⟨h.2.1, density_bounded (qn :: next) h.2.2⟩

theorem density_density7 : ∀ (l : quicklist α), density l → density7 l
  | [], _ => by simp [density7]
  | [ql], h => by
    simp only [density] at h
    simp only [density7]
    exact h
  | ql :: qn :: next, h => by
    simp only [density] at h
    simp only [density7]
    exact ⟨Nat.le_of_lt h.1, h.2.1, density_density7 (qn :: next) h.2.2⟩

/-! ## Deletion -/

theorem take_drop_succ_eq_eraseIdx (ql : List α) (n : Nat) :
    ql.take n ++ ql.drop (n + 1) = ql.eraseIdx n :=
  (List.eraseIdx_eq_take_drop_succ ql n).symm

theorem ql_delete_rc (l : quicklist α) (i : Int) (h0 : 0 ≤ i) : (ql_delete l i).1 = 0 := by
  induction l generalizing i with
  | nil => simp [ql_delete, Int.not_lt.mpr h0]
  | cons ql next ih =>
    unfold ql_delete
    rw [if_neg (Int.not_lt.mpr h0)]
    by_cases h1 : i ≥ (ql.length : Int)
    · rw [if_pos h1]
      exact ih _ (by omega)
    · rw [if_neg h1]
      dsimp only
      split
      · rfl
      · split
        · rfl
        · split
          · split <;> rfl
          · rfl

theorem ql_delete_visited (l : quicklist α) (i : Int) (h0 : 0 ≤ i) :
    visited (ql_delete l i).2 = (visited l).eraseIdx i.toNat := by
  induction l generalizing i with
  | nil => simp [ql_delete, Int.not_lt.mpr h0]
  | cons ql next ih =>
    unfold ql_delete
    rw [if_neg (Int.not_lt.mpr h0)]
    by_cases h1 : i ≥ (ql.length : Int)
    · rw [if_pos h1]
      have hle : ql.length ≤ i.toNat := by omega
      have hsub : (i - (ql.length : Int)).toNat = i.toNat - ql.length := by omega
      simp only [visited_cons]
      rw [ih _ (by omega), List.eraseIdx_append_of_length_le hle, hsub]
    · rw [if_neg h1]
      have hlt : i.toNat < ql.length := by omega
      have hflat : (ql ++ visited next).eraseIdx i.toNat = ql.eraseIdx i.toNat ++ visited next :=
        List.eraseIdx_append_of_lt_length hlt _
      simp only [visited_cons, take_drop_succ_eq_eraseIdx, hflat]
      split
      · rename_i h
        rw [List.length_eq_zero.mp h]
        simp
      · split
        · simp
        · split
          · split
            · simp only [visited_cons, List.append_assoc]
              rw [← List.append_assoc (List.take 1 _), List.take_append_drop]
            · simp
          · simp

theorem density7_tail {ql : List α} {next : quicklist α} (h : density7 (ql :: next)) :
    density7 next := by
  cases next with
  | nil => simp [density7]
  | cons qn rest =>
    simp only [density7] at h
    exact h.2.2

theorem density7_cons {ql : List α} {next : quicklist α} (h1 : 1 ≤ ql.length)
    (h2 : ql.length ≤ QL_MAXSIZE) (h3 : next ≠ [] → QL_LIMIT ≤ ql.length)
    (h4 : density7 next) : density7 (ql :: next) := by
  cases next with
  | nil =>
    simp only [density7]
    exact ⟨h1, h2⟩
  | cons qn rest =>
    simp only [density7]
    exact ⟨h3 (by simp), h2, h4⟩

theorem density7_head {ql : List α} {next : quicklist α} (h : density7 (ql :: next)) :
    1 ≤ ql.length ∧ ql.length ≤ QL_MAXSIZE := by
  cases next with
  | nil =>
    simp only [density7] at h
    exact h
  | cons qn rest =>
    simp only [density7, QL_LIMIT] at h
    exact ⟨by omega, h.2.1⟩

theorem density7_head_inner {ql qn : List α} {rest : quicklist α}
    (h : density7 (ql :: qn :: rest)) : QL_LIMIT ≤ ql.length := by
  simp only [density7] at h
  exact h.1

theorem ql_delete_bounded (l : quicklist α) (i : Int) (hb : bounded l) :
    bounded (ql_delete l i).2 := by
  induction l generalizing i with
  | nil =>
    unfold ql_delete
    split <;> exact hb
  | cons ql next ih =>
    have hb2 := bounded_cons.mp hb
    unfold ql_delete
    split
    · exact hb
    · split
      · exact bounded_cons.mpr ⟨hb2.1, ih _ hb2.2⟩
      · have hle : (ql.take i.toNat ++ ql.drop (i.toNat + 1)).length ≤ ql.length := by
          rw [take_drop_succ_eq_eraseIdx, List.length_eraseIdx]
          split <;> omega
        have h14 := hb2.1
        dsimp only
        split
        · exact hb2.2
        · split
          · refine bounded_cons.mpr ⟨?_, hb2.2⟩
            exact le_trans hle h14
          · rename_i qn rest
            have hb3 := bounded_cons.mp hb2.2
            split
            · split
              · refine bounded_cons.mpr ⟨?_, bounded_cons.mpr ⟨?_, hb3.2⟩⟩
                · simp only [QL_MAXSIZE, QL_LIMIT, List.length_append, List.length_take] at *
                  omega
                · have := hb3.1
                  simp only [QL_MAXSIZE, List.length_drop] at *
                  omega
              · refine bounded_cons.mpr ⟨?_, hb3.2⟩
                simp only [QL_MAXSIZE, List.length_append] at *
                omega
            · exact bounded_cons.mpr ⟨le_trans hle h14, hb2.2⟩

/-! ## Indexed read -/

theorem ql_get_eq (l : quicklist α) (i : Int) :
    ql_get l i = if 0 ≤ i then (visited l)[i.toNat]? else none := by
  induction l generalizing i with
  | nil => simp [ql_get]
  | cons ql next ih =>
    unfold ql_get
    by_cases h1 : i < (ql.length : Int)
    · rw [if_pos h1]
      by_cases h0 : 0 ≤ i
      · rw [if_pos h0, if_pos h0, visited_cons, List.getElem?_append_left (by omega)]
      · rw [if_neg h0, if_neg h0]
    · rw [if_neg h1, ih, if_pos (by omega : 0 ≤ i - (ql.length : Int)), if_pos (by omega : 0 ≤ i),
        visited_cons, List.getElem?_append_right (by omega)]
      congr 1
      omega

theorem ql_get_of_lt (l : quicklist α) (i : Int) (h0 : 0 ≤ i) (h1 : i < ql_length l) :
    ∃ x, ql_get l i = some x ∧ (visited l)[i.toNat]? = some x := by
  rw [ql_length_eq] at h1
  have hlt : i.toNat < (visited l).length := by omega
  refine ⟨(visited l)[i.toNat], ?_, List.getElem?_eq_getElem hlt⟩
  rw [ql_get_eq, if_pos h0, List.getElem?_eq_getElem hlt]

theorem ql_get_none (l : quicklist α) (i : Int) (h : i < 0 ∨ ql_length l ≤ i) :
    ql_get l i = none := by
  rw [ql_length_eq] at h
  rw [ql_get_eq]
  split
  · exact List.getElem?_eq_none (by omega)
  · rfl

/-! ## Append -/

theorem ql_push_visited (l : quicklist α) (x : α) :
    visited (ql_push l x).1 = visited l ++ [x] := by
  induction l with
  | nil => simp [ql_push]
  | cons ql next ih =>
    unfold ql_push
    split
    · simp [ih]
    · rename_i h
      have hn : next = [] := by
        cases next with
        | nil => rfl
        | cons a b => simp at h
      subst hn
      simp

theorem ql_push_returned (l : quicklist α) (x : α) (hb : bounded l) :
    ∃ init nd, (ql_push l x).1 = init ++ [nd] ∧ (ql_push l x).2 = [nd] ∧
      nd.getLast? = some x ∧ nd.length ≤ QL_MAXSIZE := by
  induction l with
  | nil => exact ⟨[], [x], by simp [ql_push]⟩
  | cons ql next ih =>
    rw [bounded_cons] at hb
    unfold ql_push
    split
    · obtain ⟨init, nd, h1, h2, h3, h4⟩ := ih hb.2
      exact ⟨ql :: init, nd, by simp [h1], h2, h3, h4⟩
    · rename_i h
      have hn : next = [] := by
        cases next with
        | nil => rfl
        | cons a b => simp at h
      subst hn
      refine ⟨[], ql ++ [x], by simp, rfl, by simp, ?_⟩
      have := hb.1
      simp only [QL_MAXSIZE, List.length_append, List.length_singleton] at *
      omega

/-! ## Insertion: one lemma per branch of `ql_insert` -/

theorem ql_insert_nil (i : Int) (x : α) :
    ql_insert ([] : quicklist α) i x = if i = 0 then some (0, [[x]]) else some (EINVAL, []) := by
  rw [ql_insert]
  simp [ql_push]

theorem ql_insert_descend (ql : List α) (next : quicklist α) (i : Int) (x : α)
    (h : (QL_MAXSIZE : Int) ≤ i) :
    ql_insert (ql :: next) i x
      = (ql_insert next (i - (ql.length : Int)) x).map (fun r => (r.1, ql :: r.2)) := by
  rw [ql_insert]
  rw [if_pos h]

theorem ql_insert_room (ql : List α) (next : quicklist α) (i : Int) (x : α)
    (h : i < (QL_MAXSIZE : Int)) (hr : ql.length < QL_MAXSIZE) :
    ql_insert (ql :: next) i x
      = if 0 ≤ i ∧ i ≤ (ql.length : Int) then
          some (0, (ql.take i.toNat ++ x :: ql.drop i.toNat) :: next)
        else none := by
  rw [ql_insert]
  rw [if_neg (Int.not_le.mpr h), if_pos hr]

theorem ql_insert_split_left (ql : List α) (next : quicklist α) (i : Int) (x : α)
    (h : i < (QL_MAXSIZE : Int)) (hr : ¬ ql.length < QL_MAXSIZE) (hi : i ≤ (QL_LIMIT : Int)) :
    ql_insert (ql :: next) i x
      = ql_insert (ql.take QL_LIMIT :: ql.drop QL_LIMIT :: next) i x := by
  rw [ql_insert]
  rw [if_neg (Int.not_le.mpr h), if_neg hr]
  simp only [if_pos hi]

theorem ql_insert_split_right (ql : List α) (next : quicklist α) (i : Int) (x : α)
    (h : i < (QL_MAXSIZE : Int)) (hr : ¬ ql.length < QL_MAXSIZE) (hi : ¬ i ≤ (QL_LIMIT : Int)) :
    ql_insert (ql :: next) i x
      = (ql_insert (ql.drop QL_LIMIT :: next) (i - (QL_LIMIT : Int)) x).map
          (fun r => (r.1, ql.take QL_LIMIT :: r.2)) := by
  rw [ql_insert]
  rw [if_neg (Int.not_le.mpr h), if_neg hr]
  simp only [if_neg hi]

/-- What `ql_insert` does on a full head node (14 elements) for an index below 14. -/
theorem ql_insert_full (ql : List α) (next : quicklist α) (i : Int) (x : α)
    (h : i < (QL_MAXSIZE : Int)) (hr : ql.length = QL_MAXSIZE) :
    ql_insert (ql :: next) i x
      = if i ≤ (QL_LIMIT : Int) then
          (if 0 ≤ i then
            some (0, ((ql.take QL_LIMIT).take i.toNat ++ x :: (ql.take QL_LIMIT).drop i.toNat)
              :: ql.drop QL_LIMIT :: next)
           else none)
        else
          some (0, ql.take QL_LIMIT ::
            ((ql.drop QL_LIMIT).take (i - (QL_LIMIT : Int)).toNat
              ++ x :: (ql.drop QL_LIMIT).drop (i - (QL_LIMIT : Int)).toNat) :: next) := by
  have hnr : ¬ ql.length < QL_MAXSIZE := by omega
  have h7 : (ql.take QL_LIMIT).length = 7 := by
    rw [List.length_take]
    simp only [QL_MAXSIZE, QL_LIMIT] at *
    omega
  have h7d : (ql.drop QL_LIMIT).length = 7 := by
    rw [List.length_drop]
    simp only [QL_MAXSIZE, QL_LIMIT] at *
    omega
  by_cases hi : i ≤ (QL_LIMIT : Int)
  · rw [ql_insert_split_left ql next i x h hnr hi, if_pos hi,
      ql_insert_room _ _ i x h (by rw [h7]; decide), h7]
    by_cases h0 : 0 ≤ i
    · rw [if_pos ⟨h0, hi⟩, if_pos h0]
    · rw [if_neg (fun hc => h0 hc.1), if_neg h0]
  · have h14 : i < 14 := by
      simpa only [QL_MAXSIZE, Nat.cast_ofNat] using h
    have hi7 : ¬ i ≤ 7 := by
      simpa only [QL_LIMIT, Nat.cast_ofNat] using hi
    rw [ql_insert_split_right ql next i x h hnr hi, if_neg hi,
      ql_insert_room _ _ _ x (by simp only [QL_MAXSIZE, QL_LIMIT, Nat.cast_ofNat]; omega)
        (by rw [h7d]; decide), h7d]
    rw [if_pos (by simp only [QL_LIMIT, Nat.cast_ofNat]; omega)]
    rfl

theorem insert_append_left (a b : List α) (n : Nat) (x : α) (h : n ≤ a.length) :
    (a ++ b).take n ++ x :: (a ++ b).drop n = (a.take n ++ x :: a.drop n) ++ b := by
  rw [List.take_append_of_le_length h, List.drop_append_of_le_length h]
  simp

theorem insert_append_right (a b : List α) (n : Nat) (x : α) (h : a.length ≤ n) :
    (a ++ b).take n ++ x :: (a ++ b).drop n
      = a ++ (b.take (n - a.length) ++ x :: b.drop (n - a.length)) := by
  rw [List.take_append_eq_append_take, List.drop_append_eq_append_drop,
    List.take_of_length_le h, List.drop_of_length_le h]
  simp

theorem ql_insert_room_visited (ql : List α) (next : quicklist α) (n : Nat) (x : α)
    (h : n ≤ ql.length) :
    visited ((ql.take n ++ x :: ql.drop n) :: next)
      = (visited (ql :: next)).take n ++ x :: (visited (ql :: next)).drop n := by
  rw [visited_cons, visited_cons, insert_append_left _ _ _ _ h]

theorem ql_insert_left_visited (ql : List α) (next : quicklist α) (n : Nat) (x : α)
    (h : n ≤ 7) (hl : 7 ≤ ql.length) :
    visited (((ql.take 7).take n ++ x :: (ql.take 7).drop n) :: ql.drop 7 :: next)
      = (visited (ql :: next)).take n ++ x :: (visited (ql :: next)).drop n := by
  have h7 : n ≤ (ql.take 7).length := by
    rw [List.length_take]
    omega
  rw [visited_cons, visited_cons, visited_cons, ← insert_append_left _ _ _ _ h7,
    ← List.append_assoc (ql.take 7), List.take_append_drop]

theorem ql_insert_right_visited (ql : List α) (next : quicklist α) (n : Nat) (x : α)
    (h : 7 ≤ n) (hl : n ≤ ql.length) :
    visited (ql.take 7 :: ((ql.drop 7).take (n - 7) ++ x :: (ql.drop 7).drop (n - 7)) :: next)
      = (visited (ql :: next)).take n ++ x :: (visited (ql :: next)).drop n := by
  have h7 : (ql.take 7).length = 7 := by
    rw [List.length_take]
    omega
  have hd : n - 7 ≤ (ql.drop 7).length := by
    rw [List.length_drop]
    omega
  have e : ql ++ visited next = ql.take 7 ++ (ql.drop 7 ++ visited next) := by
    rw [← List.append_assoc, List.take_append_drop]
  rw [visited_cons, visited_cons, visited_cons, ← insert_append_left _ _ _ _ hd, e,
    insert_append_right (ql.take 7) _ n x (by omega), h7]

/-- Whenever `ql_insert` returns normally on a chain of nodes of at most 14
elements, it either succeeded and placed `x` at position `i`, or it returned
`EINVAL` and changed nothing. -/
theorem ql_insert_returns (l : quicklist α) (i : Int) (x : α) (rc : Int) (r : quicklist α)
    (hb : bounded l) (h : ql_insert l i x = some (rc, r)) :
    (rc = 0 ∧ 0 ≤ i ∧ i ≤ ql_length l ∧ bounded r ∧
        visited r = (visited l).take i.toNat ++ x :: (visited l).drop i.toNat) ∨
    (rc = EINVAL ∧ r = l ∧ (i < 0 ∨ ql_length l < i)) := by
  induction l generalizing i rc r with
  | nil =>
    rw [ql_insert_nil] at h
    split at h
    · rename_i h0
      simp only [Option.some.injEq, Prod.mk.injEq] at h
      left
      subst h0
      rw [← h.1, ← h.2]
      simp [ql_length, bounded]
    · rename_i h0
      simp only [Option.some.injEq, Prod.mk.injEq] at h
      right
      refine ⟨h.1.symm, h.2.symm, ?_⟩
      simp only [ql_length]
      omega
  | cons ql next ih =>
    rw [bounded_cons] at hb
    have hql := hb.1
    simp only [QL_MAXSIZE] at hql
    by_cases h14 : (QL_MAXSIZE : Int) ≤ i
    · rw [ql_insert_descend ql next i x h14] at h
      simp only [QL_MAXSIZE, Nat.cast_ofNat] at h14
      cases hrec : ql_insert next (i - (ql.length : Int)) x with
      | none => simp [hrec] at h
      | some p =>
        obtain ⟨rc1, r1⟩ := p
        simp only [hrec, Option.map_some', Option.some.injEq, Prod.mk.injEq] at h
        rcases ih _ _ _ hb.2 hrec with ⟨e1, e2, e3, e4, e5⟩ | ⟨e1, e2, e3⟩
        · left
          refine ⟨by rw [← h.1, e1], by omega, ?_, ?_, ?_⟩
          · simp only [ql_length]
            omega
          · rw [← h.2, bounded_cons]
            exact ⟨hb.1, e4⟩
          · have hsub : (i - (ql.length : Int)).toNat = i.toNat - ql.length := by omega
            rw [← h.2, visited_cons, e5, visited_cons,
              insert_append_right ql _ i.toNat x (by omega), hsub]
        · right
          refine ⟨by rw [← h.1, e1], by rw [← h.2, e2], ?_⟩
          simp only [ql_length]
          omega
    · left
      have h14lt : i < (QL_MAXSIZE : Int) := Int.not_le.mp h14
      have h14n : i < 14 := by
        simpa only [QL_MAXSIZE, Nat.cast_ofNat] using h14lt
      have hlen : (ql.length : Int) ≤ ql_length (ql :: next) := by
        have := ql_length_nonneg next
        simp only [ql_length]
        omega
      by_cases hr : ql.length < QL_MAXSIZE
      · rw [ql_insert_room ql next i x h14lt hr] at h
        split at h
        · rename_i hi
          simp only [Option.some.injEq, Prod.mk.injEq] at h
          refine ⟨h.1.symm, hi.1, by omega, ?_, ?_⟩
          · rw [← h.2, bounded_cons]
            refine ⟨?_, hb.2⟩
            simp only [QL_MAXSIZE, List.length_append, List.length_take, List.length_cons,
              List.length_drop] at *
            omega
          · rw [← h.2]
            exact ql_insert_room_visited ql next i.toNat x (by omega)
        · exact absurd h (by simp)
      · have hfull : ql.length = QL_MAXSIZE := by
          simp only [QL_MAXSIZE] at *
          omega
        rw [ql_insert_full ql next i x h14lt hfull] at h
        simp only [QL_MAXSIZE, QL_LIMIT, Nat.cast_ofNat] at h hfull
        split at h
        · rename_i hi
          split at h
          · rename_i h0
            simp only [Option.some.injEq, Prod.mk.injEq] at h
            refine ⟨h.1.symm, h0, by omega, ?_, ?_⟩
            · rw [← h.2, bounded_cons, bounded_cons]
              refine ⟨?_, ?_, hb.2⟩
              · simp only [QL_MAXSIZE, List.length_append, List.length_take, List.length_cons,
                  List.length_drop]
                omega
              · simp only [QL_MAXSIZE, List.length_drop]
                omega
            · rw [← h.2]
              exact ql_insert_left_visited ql next i.toNat x (by omega) (by omega)
          · exact absurd h (by simp)
        · rename_i hi
          simp only [Option.some.injEq, Prod.mk.injEq] at h
          refine ⟨h.1.symm, by omega, by omega, ?_, ?_⟩
          · rw [← h.2, bounded_cons, bounded_cons]
            refine ⟨?_, ?_, hb.2⟩
            · simp only [QL_MAXSIZE, List.length_take]
              omega
            · simp only [QL_MAXSIZE, List.length_append, List.length_take, List.length_cons,
                List.length_drop]
              omega
          · have hsub : (i - 7).toNat = i.toNat - 7 := by omega
            rw [← h.2, hsub]
            exact ql_insert_right_visited ql next i.toNat x (by omega) (by omega)

theorem ql_insert_density7 (l : quicklist α) (i : Int) (x : α) (r : quicklist α)
    (hd : density7 l) (h1 : i ≤ ql_length l) (h : ql_insert l i x = some (0, r)) :
    density7 r := by
  induction l generalizing i r with
  | nil =>
    rw [ql_insert_nil] at h
    split at h
    · simp only [Option.some.injEq, Prod.mk.injEq, true_and] at h
      rw [← h]
      simp [density7]
    · simp at h
  | cons ql next ih =>
    have hh := density7_head hd
    have ht := density7_tail hd
    have hql := hh.2
    simp only [QL_MAXSIZE] at hql
    by_cases h14 : (QL_MAXSIZE : Int) ≤ i
    · rw [ql_insert_descend ql next i x h14] at h
      simp only [QL_MAXSIZE, Nat.cast_ofNat] at h14
      cases hrec : ql_insert next (i - (ql.length : Int)) x with
      | none => simp [hrec] at h
      | some p =>
        obtain ⟨rc1, r1⟩ := p
        simp only [hrec, Option.map_some', Option.some.injEq, Prod.mk.injEq] at h
        rw [h.1] at hrec
        have hr1 := ih _ _ ht (by simp only [ql_length] at h1; omega) hrec
        rw [← h.2]
        refine density7_cons hh.1 hh.2 (fun _ => ?_) hr1
        cases next with
        | nil =>
          simp only [ql_length, QL_LIMIT] at *
          omega
        | cons qn rest => exact density7_head_inner hd
    · have h14lt : i < (QL_MAXSIZE : Int) := Int.not_le.mp h14
      have h14n : i < 14 := by
        simpa only [QL_MAXSIZE, Nat.cast_ofNat] using h14lt
      have ht7 := ht
      by_cases hr : ql.length < QL_MAXSIZE
      · rw [ql_insert_room ql next i x h14lt hr] at h
        split at h
        · rename_i hi
          simp only [Option.some.injEq, Prod.mk.injEq, true_and] at h
          rw [← h]
          have hlen : (ql.take i.toNat ++ x :: ql.drop i.toNat).length = ql.length + 1 := by
            simp only [List.length_append, List.length_take, List.length_cons, List.length_drop]
            omega
          refine density7_cons (by omega) ?_ (fun hne => ?_) ht7
          · simp only [QL_MAXSIZE] at *
            omega
          · rw [hlen]
            cases next with
            | nil => exact absurd rfl hne
            | cons qn rest =>
              have := density7_head_inner hd
              simp only [QL_LIMIT] at *
              omega
        · exact absurd h (by simp)
      · have hfull : ql.length = QL_MAXSIZE := by
          simp only [QL_MAXSIZE] at *
          omega
        rw [ql_insert_full ql next i x h14lt hfull] at h
        simp only [QL_MAXSIZE, QL_LIMIT, Nat.cast_ofNat] at h hfull
        split at h
        · rename_i hi
          split at h
          · rename_i h0
            simp only [Option.some.injEq, Prod.mk.injEq, true_and] at h
            rw [← h]
            refine density7_cons ?_ ?_ (fun _ => ?_) (density7_cons ?_ ?_ (fun _ => ?_) ht7)
            all_goals
              simp only [QL_MAXSIZE, QL_LIMIT, List.length_append, List.length_take,
                List.length_cons, List.length_drop]
              omega
          · exact absurd h (by simp)
        · rename_i hi
          simp only [Option.some.injEq, Prod.mk.injEq, true_and] at h
          rw [← h]
          refine density7_cons ?_ ?_ (fun _ => ?_) (density7_cons ?_ ?_ (fun _ => ?_) ht7)
          all_goals
            simp only [QL_MAXSIZE, QL_LIMIT, List.length_append, List.length_take,
              List.length_cons, List.length_drop]
            omega

/-- Insertion at an offset `n` inside the head node (`n ≤ num_elements`,
`n < QL_MAXSIZE`) always succeeds, whether or not the node has to be split. -/
theorem ql_insert_in_node (ql : List α) (next : quicklist α) (n : Nat) (x : α)
    (hn : n ≤ ql.length) (h14 : n < QL_MAXSIZE) (hb : ql.length ≤ QL_MAXSIZE) :
    ∃ r, ql_insert (ql :: next) (n : Int) x = some (0, r) ∧
      visited r = ql.take n ++ x :: ql.drop n ++ visited next ∧
      (bounded next → bounded r) ∧ (nonempty_nodes next → nonempty_nodes r) := by
  have hlt : (n : Int) < (QL_MAXSIZE : Int) := by exact_mod_cast h14
  have hv : ∀ r, visited r = (visited (ql :: next)).take n ++ x :: (visited (ql :: next)).drop n →
      visited r = ql.take n ++ x :: ql.drop n ++ visited next := by
    intro r hr
    rw [hr, visited_cons, insert_append_left _ _ _ _ hn]
  have hbd : ∀ r, ql_insert (ql :: next) (n : Int) x = some (0, r) → bounded next → bounded r := by
    intro r hr hbn
    rcases ql_insert_returns _ _ _ _ _ (bounded_cons.mpr ⟨hb, hbn⟩) hr with h | h
    · exact h.2.2.2.1
    · exact absurd h.1 (by decide)
  have hins : ∀ (ys : List α) (k : Nat), ys.take k ++ x :: ys.drop k ≠ [] := by
    intro ys k
    simp
  simp only [QL_MAXSIZE] at h14 hb
  by_cases hr : ql.length < QL_MAXSIZE
  · have e := ql_insert_room ql next n x hlt hr
    rw [if_pos ⟨by omega, by omega⟩] at e
    refine ⟨_, e, hv _ (ql_insert_room_visited ql next _ x (by simpa using hn)), hbd _ e, ?_⟩
    intro hne
    exact nonempty_nodes_cons.mpr ⟨hins _ _, hne⟩
  · have hfull : ql.length = QL_MAXSIZE := by
      simp only [QL_MAXSIZE] at *
      omega
    have e := ql_insert_full ql next n x hlt hfull
    simp only [QL_MAXSIZE, QL_LIMIT, Nat.cast_ofNat] at hfull e
    split at e
    · rename_i hi
      rw [if_pos (by omega)] at e
      refine ⟨_, e, hv _ (ql_insert_left_visited ql next _ x (by simp; omega) (by omega)),
        hbd _ e, ?_⟩
      intro hne
      refine nonempty_nodes_cons.mpr ⟨hins _ _, nonempty_nodes_cons.mpr ⟨?_, hne⟩⟩
      apply List.ne_nil_of_length_pos
      rw [List.length_drop]
      omega
    · rename_i hi
      have hsub : ((n : Int) - 7).toNat = n - 7 := by omega
      refine ⟨_, e, hv _ ?_, hbd _ e, ?_⟩
      · rw [hsub]
        exact ql_insert_right_visited ql next n x (by omega) (by omega)
      · intro hne
        refine nonempty_nodes_cons.mpr ⟨?_, nonempty_nodes_cons.mpr ⟨hins _ _, hne⟩⟩
        apply List.ne_nil_of_length_pos
        rw [List.length_take]
        omega

/-! ## Sorted-set layer: `ql_set_insert` -/

section SetLayer

variable [LinearOrder α]

theorem InsertedAt.sorted {old new : List α} {v : α} (h : InsertedAt old new v)
    (hs : old.Pairwise (· < ·)) : new.Pairwise (· < ·) := by
  obtain ⟨a, b, h1, h2, h3, h4⟩ := h
  subst h1 h2
  rw [List.pairwise_append] at hs ⊢
  refine ⟨hs.1, ?_, ?_⟩
  · rw [List.pairwise_cons]
    exact ⟨h4, hs.2.1⟩
  · intro y hy z hz
    rcases List.mem_cons.mp hz with hz | hz
    · rw [hz]
      exact h3 y hy
    · exact hs.2.2 y hy z hz

theorem InsertedAt.mem_iff {old new : List α} {v : α} (h : InsertedAt old new v) (y : α) :
    y ∈ new ↔ y = v ∨ y ∈ old := by
  obtain ⟨a, b, h1, h2, _, _⟩ := h
  subst h1 h2
  simp only [List.mem_append, List.mem_cons]
  tauto

theorem InsertedAt.not_mem {old new : List α} {v : α} (h : InsertedAt old new v) :
    v ∉ old := by
  obtain ⟨a, b, h1, _, h3, h4⟩ := h
  subst h1
  intro hv
  rcases List.mem_append.mp hv with hv | hv
  · exact lt_irrefl v (h3 v hv)
  · exact lt_irrefl v (h4 v hv)

theorem InsertedAt.length {old new : List α} {v : α} (h : InsertedAt old new v) :
    new.length = old.length + 1 := by
  obtain ⟨a, b, h1, h2, _, _⟩ := h
  subst h1 h2
  simp only [List.length_append, List.length_cons]
  omega

theorem ql_set_insert_loop_spec (ql : List α) (next : quicklist α) (v : α)
    (es pre : List α) (hq : ql = pre ++ es) (hpre : ∀ y ∈ pre, y < v)
    (hex : ∃ y ∈ es, v ≤ y) (hs : (ql ++ visited next).Pairwise (· < ·))
    (hb : ql.length ≤ QL_MAXSIZE) (hbn : bounded next) (hnn : nonempty_nodes next) :
    ∃ rc r, ql_set_insert_loop (ql :: next) v es (pre.length : Int) = some (rc, r) ∧
      nonempty_nodes r ∧ bounded r ∧
      ((rc = 1 ∧ v ∈ ql ∧ r = ql :: next) ∨
       (rc = 0 ∧ InsertedAt (ql ++ visited next) (visited r) v)) := by
  induction es generalizing pre with
  | nil =>
    obtain ⟨y, hy, _⟩ := hex
    exact absurd hy (List.not_mem_nil y)
  | cons e es ih =>
    have hlen : ql.length = pre.length + (es.length + 1) := by
      rw [hq]
      simp
    unfold ql_set_insert_loop
    by_cases h1 : v < e
    · rw [if_pos h1]
      obtain ⟨r, e1, e2, e3, e4⟩ := ql_insert_in_node ql next pre.length v (by omega)
        (by simp only [QL_MAXSIZE] at *; omega) hb
      refine ⟨0, r, by rw [e1]; rfl, e4 hnn, e3 hbn, Or.inr ⟨rfl, pre, e :: es ++ visited next,
        by rw [hq]; simp, ?_, hpre, ?_⟩⟩
      · rw [e2, hq, List.take_left', List.drop_left']
        · simp
        · rfl
        · rfl
      · intro y hy
        rcases List.mem_cons.mp hy with hy | hy
        · rw [hy]
          exact h1
        · rw [hq, List.append_assoc, List.pairwise_append] at hs
          have := (List.pairwise_cons.mp hs.2.1).1 y hy
          exact lt_trans h1 this
    · rw [if_neg h1]
      by_cases h2 : v = e
      · rw [if_pos h2]
        refine ⟨1, ql :: next, rfl, ?_, bounded_cons.mpr ⟨hb, hbn⟩, Or.inl ⟨rfl, ?_, rfl⟩⟩
        · refine nonempty_nodes_cons.mpr ⟨?_, hnn⟩
          rw [hq]
          simp
        · rw [hq, h2]
          simp
      · rw [if_neg h2]
        have h3 : e < v := lt_of_le_of_ne (not_lt.mp h1) (fun h => h2 h.symm)
        have := ih (pre ++ [e]) (by rw [hq]; simp)
          (by
            intro y hy
            rcases List.mem_append.mp hy with hy | hy
            · exact hpre y hy
            · rw [List.mem_singleton.mp hy]
              exact h3)
          (by
            obtain ⟨y, hy, hvy⟩ := hex
            rcases List.mem_cons.mp hy with hy | hy
            · rw [hy] at hvy
              exact absurd h3 (not_lt.mpr hvy)
            · exact ⟨y, hy, hvy⟩)
        simpa using this

theorem getLast?_max {ql rest : List α} {last : α} (hl : ql.getLast? = some last)
    (hs : (ql ++ rest).Pairwise (· < ·)) : last ∈ ql ∧ ∀ y ∈ ql, y ≤ last := by
  have hd := List.dropLast_append_getLast? last hl
  refine ⟨List.mem_of_getLast?_eq_some hl, ?_⟩
  intro y hy
  rw [← hd] at hy hs
  rcases List.mem_append.mp hy with hy | hy
  · rw [List.pairwise_append] at hs
    have h2 := hs.1
    rw [List.pairwise_append] at h2
    exact le_of_lt (h2.2.2 y hy last (List.mem_singleton.mpr rfl))
  · rw [List.mem_singleton.mp hy]

theorem ql_set_insert_spec (l : quicklist α) (v : α) (hn : nonempty_nodes l) (hb : bounded l)
    (hs : (visited l).Pairwise (· < ·)) :
    ∃ rc r, ql_set_insert l v = some (rc, r) ∧ nonempty_nodes r ∧ bounded r ∧
      ((rc = 1 ∧ v ∈ visited l ∧ r = l) ∨
       (rc = 0 ∧ InsertedAt (visited l) (visited r) v)) := by
  induction l with
  | nil =>
    refine ⟨0, [[v]], by simp [ql_set_insert, ql_push], by simp [nonempty_nodes],
      by simp [bounded], Or.inr ⟨rfl, [], [], ?_⟩⟩
    simp
  | cons ql next ih =>
    rw [nonempty_nodes_cons] at hn
    rw [bounded_cons] at hb
    rw [visited_cons] at hs
    have hsn : (visited next).Pairwise (· < ·) := (List.pairwise_append.mp hs).2.1
    obtain ⟨rc1, r1, e1, e2, e3, e4⟩ := ih hn.2 hb.2 hsn
    -- the recursive call on `ql->next`
    have hrec : (∀ y ∈ ql, y < v) →
        ∃ rc r, (ql_set_insert next v).map (fun r => (r.1, ql :: r.2)) = some (rc, r) ∧
          nonempty_nodes r ∧ bounded r ∧
          ((rc = 1 ∧ v ∈ visited (ql :: next) ∧ r = ql :: next) ∨
           (rc = 0 ∧ InsertedAt (visited (ql :: next)) (visited r) v)) := by
      intro hlt
      refine ⟨rc1, ql :: r1, by rw [e1]; rfl, nonempty_nodes_cons.mpr ⟨hn.1, e2⟩,
        bounded_cons.mpr ⟨hb.1, e3⟩, ?_⟩
      rcases e4 with ⟨h1, h2, h3⟩ | ⟨h1, a, b, h2, h3, h4, h5⟩
      · left
        refine ⟨h1, ?_, by rw [h3]⟩
        rw [visited_cons]
        exact List.mem_append_right _ h2
      · right
        refine ⟨h1, ql ++ a, b, ?_, ?_, ?_, h5⟩
        · rw [visited_cons, h2, List.append_assoc]
        · rw [visited_cons, h3, List.append_assoc]
        · intro y hy
          rcases List.mem_append.mp hy with hy | hy
          · exact hlt y hy
          · exact h4 y hy
    -- storing `data` in the next free slot of `ql`
    have happ : (∀ y ∈ ql, y < v) → ql.length ≠ QL_MAXSIZE → (∀ y ∈ visited next, v < y) →
        nonempty_nodes ((ql ++ [v]) :: next) ∧ bounded ((ql ++ [v]) :: next) ∧
          InsertedAt (visited (ql :: next)) (visited ((ql ++ [v]) :: next)) v := by
      intro hlt hlen hgt
      refine ⟨nonempty_nodes_cons.mpr ⟨by simp, hn.2⟩, bounded_cons.mpr ⟨?_, hb.2⟩,
        ql, visited next, by simp, by simp, hlt, hgt⟩
      have := hb.1
      simp only [QL_MAXSIZE, List.length_append, List.length_singleton] at *
      omega
    unfold ql_set_insert
    cases hl : ql.getLast? with
    | none => exact absurd (List.getLast?_eq_none_iff.mp hl) hn.1
    | some last =>
      obtain ⟨hmem, hmax⟩ := getLast?_max hl hs
      dsimp only
      by_cases h1 : last < v
      · have hlt : ∀ y ∈ ql, y < v := fun y hy => lt_of_le_of_lt (hmax y hy) h1
        rw [if_pos h1]
        by_cases h2 : ql.length = QL_MAXSIZE
        · rw [if_pos h2]
          exact hrec hlt
        · rw [if_neg h2]
          cases next with
          | nil =>
            obtain ⟨a1, a2, a3⟩ := happ hlt h2 (by simp)
            exact ⟨0, _, rfl, a1, a2, Or.inr ⟨rfl, a3⟩⟩
          | cons qn rest =>
            cases qn with
            | nil => exact absurd rfl (nonempty_nodes_cons.mp hn.2).1
            | cons e0 es =>
              by_cases h3 : e0 ≤ v
              · simp only [next_first_le, h3, decide_True]
                exact hrec hlt
              · simp only [next_first_le, h3, decide_False]
                have hgt : ∀ y ∈ visited ((e0 :: es) :: rest), v < y := by
                  intro y hy
                  rw [visited_cons, List.cons_append] at hy hsn
                  rcases List.mem_cons.mp hy with hy | hy
                  · rw [hy]
                    exact not_le.mp h3
                  · exact lt_trans (not_le.mp h3) ((List.pairwise_cons.mp hsn).1 y hy)
                obtain ⟨a1, a2, a3⟩ := happ hlt h2 hgt
                exact ⟨0, _, rfl, a1, a2, Or.inr ⟨rfl, a3⟩⟩
      · rw [if_neg h1]
        have := ql_set_insert_loop_spec ql next v ql [] rfl (by simp)
          ⟨last, hmem, not_lt.mp h1⟩ hs hb.1 hb.2 hn.2
        obtain ⟨rc, r, a1, a2, a3, a4⟩ := this
        refine ⟨rc, r, by simpa using a1, a2, a3, ?_⟩
        rcases a4 with ⟨h1, h2, h3⟩ | h
        · left
          refine ⟨h1, ?_, h3⟩
          rw [visited_cons]
          exact List.mem_append_left _ h2
        · right
          rw [visited_cons]
          exact h

/-! ## Sorted-set layer: `ql_set_find` -/

theorem ql_set_find_scan_spec (es : List α) (k : Int) (v : α) (hs : es.Pairwise (· < ·)) :
    (∃ off, ql_set_find_scan es k v = some off ∧ k ≤ off ∧ off < k + (es.length : Int) ∧
        es[(off - k).toNat]? = some v) ∨
    (ql_set_find_scan es k v = none ∧ v ∉ es) := by
  induction es generalizing k with
  | nil =>
    right
    exact ⟨rfl, List.not_mem_nil v⟩
  | cons e es ih =>
    rw [List.pairwise_cons] at hs
    unfold ql_set_find_scan
    by_cases h1 : e > v
    · right
      rw [if_pos h1]
      refine ⟨rfl, ?_⟩
      intro hv
      rcases List.mem_cons.mp hv with hv | hv
      · rw [hv] at h1
        exact lt_irrefl e h1
      · exact lt_irrefl v (lt_trans h1 (hs.1 v hv))
    · rw [if_neg h1]
      by_cases h2 : e = v
      · left
        rw [if_pos h2]
        refine ⟨k, rfl, le_refl k, ?_, ?_⟩
        · simp only [List.length_cons, Nat.cast_add, Nat.cast_one]
          omega
        · simp [h2]
      · rw [if_neg h2]
        rcases ih (k + 1) hs.2 with ⟨off, a1, a2, a3, a4⟩ | ⟨a1, a2⟩
        · left
          refine ⟨off, a1, by omega, ?_, ?_⟩
          · simp only [List.length_cons, Nat.cast_add, Nat.cast_one]
            omega
          · have hsub : (off - k).toNat = (off - (k + 1)).toNat + 1 := by omega
            rw [hsub, List.getElem?_cons_succ]
            exact a4
        · right
          refine ⟨a1, ?_⟩
          intro hv
          rcases List.mem_cons.mp hv with hv | hv
          · exact h2 hv.symm
          · exact a2 hv

theorem ql_set_find_skip_spec (l : quicklist α) (v : α) (hn : nonempty_nodes l)
    (hs : (visited l).Pairwise (· < ·)) :
    ∃ p s, l = p ++ s ∧ ql_set_find_skip l v = some s ∧ (∀ y ∈ visited p, y < v) ∧
      (∀ nd rest, s = nd :: rest → ∃ last, last ∈ nd ∧ v ≤ last) := by
  induction l with
  | nil =>
    refine ⟨[], [], rfl, rfl, by simp, ?_⟩
    intro nd rest h
    exact absurd h (by simp)
  | cons ql next ih =>
    rw [nonempty_nodes_cons] at hn
    rw [visited_cons] at hs
    unfold ql_set_find_skip
    cases hl : ql.getLast? with
    | none => exact absurd (List.getLast?_eq_none_iff.mp hl) hn.1
    | some last =>
      obtain ⟨hmem, hmax⟩ := getLast?_max hl hs
      dsimp only
      by_cases h1 : last < v
      · rw [if_pos h1]
        obtain ⟨p, s, a1, a2, a3, a4⟩ := ih hn.2 (List.pairwise_append.mp hs).2.1
        refine ⟨ql :: p, s, by rw [a1]; rfl, a2, ?_, a4⟩
        intro y hy
        rw [visited_cons] at hy
        rcases List.mem_append.mp hy with hy | hy
        · exact lt_of_le_of_lt (hmax y hy) h1
        · exact a3 y hy
      · rw [if_neg h1]
        refine ⟨[], ql :: next, rfl, rfl, by simp, ?_⟩
        intro nd rest h
        rw [List.cons.injEq] at h
        rw [← h.1]
        exact ⟨last, hmem, not_lt.mp h1⟩

end SetLayer

/-! ## Further facts about insertion -/

/-- An index strictly between the head node's count and `QL_MAXSIZE` is neither
descended on nor inside the node: the `memmove` length `num_elements - index`
is negative. -/
theorem ql_insert_gap (ql : List α) (next : quicklist α) (i : Int) (x : α)
    (h1 : (ql.length : Int) < i) (h2 : i < (QL_MAXSIZE : Int)) :
    ql_insert (ql :: next) i x = none := by
  have hr : ql.length < QL_MAXSIZE := by
    simp only [QL_MAXSIZE, Nat.cast_ofNat] at *
    omega
  rw [ql_insert_room ql next i x h2 hr, if_neg]
  omega

/-- When `ql_insert` succeeds, a following `ql_delete` at the same index
restores the element sequence. -/
theorem ql_insert_delete_roundtrip (l : quicklist α) (i : Int) (x : α) (r : quicklist α)
    (hb : bounded l) (h : ql_insert l i x = some (0, r)) :
    (ql_delete r i).1 = 0 ∧ visited (ql_delete r i).2 = visited l := by
  rcases ql_insert_returns l i x 0 r hb h with ⟨_, h0, h1, _, hv⟩ | ⟨hrc, _⟩
  · refine ⟨ql_delete_rc r i h0, ?_⟩
    rw [ql_delete_visited r i h0, hv]
    rw [ql_length_eq] at h1
    have hlen : ((visited l).take i.toNat).length = i.toNat := by
      rw [List.length_take]
      omega
    rw [List.eraseIdx_append_of_length_le (by omega), hlen, Nat.sub_self, List.eraseIdx_cons_zero,
      List.take_append_drop]
  · exact absurd hrc (by decide)

/-! ## Main results -/

/-- C1 (fails on the code): the chain of two nodes of 8 elements satisfies the
density invariant and 10 is an index within `0 .. ql_length`, yet `ql_insert`
at index 10 does not return success: 10 is below `QL_MAXSIZE`, so the head node
is not descended on, and its `memmove` gets the negative length `8 - 10`. -/
theorem ql_insert_gap_index_undefined :
    density [[0, 1, 2, 3, 4, 5, 6, 7], [8, 9, 10, 11, 12, 13, 14, 15]] ∧
    (0 : Int) ≤ 10 ∧
    10 ≤ ql_length [[0, 1, 2, 3, 4, 5, 6, 7], [8, 9, 10, 11, 12, 13, 14, 15]] ∧
    ql_insert [[0, 1, 2, 3, 4, 5, 6, 7], [8, 9, 10, 11, 12, 13, 14, 15]] 10 (99 : Nat) = none := by
  refine ⟨by simp [density], by decide, by decide, ?_⟩
  exact ql_insert_gap _ _ 10 99 (by decide) (by decide)

/-- C2 (counterexample): a single full node satisfies the density invariant;
`ql_insert` at index 10 succeeds and leaves the nodes (7, 8), whose first node
is not the last and holds only 7 elements. -/
theorem ql_insert_density_counterexample :
    density [[0, 1, 2, 3, 4, 5, 6, 7, 8, 9, 10, 11, 12, 13]] ∧
    (0 : Int) ≤ 10 ∧
    10 ≤ ql_length [[0, 1, 2, 3, 4, 5, 6, 7, 8, 9, 10, 11, 12, 13]] ∧
    ql_insert [[0, 1, 2, 3, 4, 5, 6, 7, 8, 9, 10, 11, 12, 13]] 10 (99 : Nat)
      = some (0, [[0, 1, 2, 3, 4, 5, 6], [7, 8, 9, 99, 10, 11, 12, 13]]) ∧
    ¬ density [[0, 1, 2, 3, 4, 5, 6], [7, 8, 9, 99, 10, 11, 12, 13]] := by
  refine ⟨by simp [density], by decide, by decide, by simp [ql_insert], by simp [density]⟩

/-- C2 (amended): on a chain satisfying the density invariant and an index in
`0 .. ql_length`, a successful `ql_insert` leaves a chain in which every node
except the last holds at least 7 and at most 14 elements and the last holds
between 1 and 14. -/
theorem ql_insert_keeps_density7 (l : quicklist α) (i : Int) (x : α) (r : quicklist α)
    (hd : density l) (_h0 : 0 ≤ i) (h1 : i ≤ ql_length l)
    (h : ql_insert l i x = some (0, r)) : density7 r :=
  ql_insert_density7 l i x r (density_density7 l hd) h1 h

theorem ql_insert_keeps_density7_witness :
    density [[0, 1, 2, 3, 4, 5, 6, 7, 8, 9, 10, 11, 12, 13]] ∧
    ql_insert [[0, 1, 2, 3, 4, 5, 6, 7, 8, 9, 10, 11, 12, 13]] 3 (99 : Nat)
      = some (0, [[0, 1, 2, 99, 3, 4, 5, 6], [7, 8, 9, 10, 11, 12, 13]]) ∧
    density7 [[0, 1, 2, 99, 3, 4, 5, 6], [7, 8, 9, 10, 11, 12, 13]] :=
  ⟨by simp [density], by simp [ql_insert],
    ql_insert_keeps_density7 [[0, 1, 2, 3, 4, 5, 6, 7, 8, 9, 10, 11, 12, 13]] 3 99 _
      (by simp [density]) (by decide) (by decide) (by simp [ql_insert])⟩

/-- C3: on a chain whose nodes hold at most 14 elements, `ql_delete` at an index
`0 ≤ i < ql_length` returns 0 and the visited sequence of the result is the
original one with the element at position `i` removed; the length drops by 1,
and the nodes of the result again hold at most 14 elements. -/
theorem ql_delete_removes_at (l : quicklist α) (i : Int) (hb : bounded l)
    (h0 : 0 ≤ i) (h1 : i < ql_length l) :
    (ql_delete l i).1 = 0 ∧
    visited (ql_delete l i).2 = (visited l).eraseIdx i.toNat ∧
    ql_length (ql_delete l i).2 = ql_length l - 1 ∧
    bounded (ql_delete l i).2 := by
  refine ⟨ql_delete_rc l i h0, ql_delete_visited l i h0, ?_, ql_delete_bounded l i hb⟩
  rw [ql_length_eq, ql_length_eq, ql_delete_visited l i h0]
  rw [ql_length_eq] at h1
  rw [List.length_eraseIdx_of_lt (by omega)]
  omega

theorem ql_delete_removes_at_witness :
    bounded [[10, 20, 30], [40]] ∧
    (ql_delete [[10, 20, 30], [40]] 2).1 = 0 ∧
    visited (ql_delete [[10, 20, 30], [40]] 2).2 = [10, 20, 40] ∧
    ql_length (ql_delete [[10, 20, 30], [40]] 2).2 = 3 ∧
    bounded (ql_delete [[10, 20, 30], [40]] 2).2 :=
  ⟨by simp [bounded],
    ql_delete_removes_at [[10, 20, 30], [40]] 2 (by simp [bounded]) (by decide) (by decide)⟩

/-- C5: on a chain whose nodes hold at most 14 elements (the empty chain
included), `ql_push` appends `x` to the visited sequence, so the length grows
by 1 and every earlier `ql_get` is unchanged; the node it returns is the last
node of the new chain and `x` is in its last occupied slot. -/
theorem ql_push_appends (l : quicklist α) (x : α) (hb : bounded l) :
    visited (ql_push l x).1 = visited l ++ [x] ∧
    ql_length (ql_push l x).1 = ql_length l + 1 ∧
    (∀ i : Int, 0 ≤ i → i < ql_length l → ql_get (ql_push l x).1 i = ql_get l i) ∧
    ∃ init nd, (ql_push l x).1 = init ++ [nd] ∧ (ql_push l x).2 = [nd] ∧
      nd.getLast? = some x ∧ nd.length ≤ QL_MAXSIZE := by
  refine ⟨ql_push_visited l x, ?_, ?_, ql_push_returned l x hb⟩
  · rw [ql_length_eq, ql_length_eq, ql_push_visited]
    simp
  · intro i h0 h1
    rw [ql_length_eq] at h1
    rw [ql_get_eq, ql_get_eq, ql_push_visited, List.getElem?_append_left (by omega)]

theorem ql_push_appends_witness :
    bounded [[1, 2, 3, 4, 5, 6, 7, 8, 9, 10, 11, 12, 13, 14]] ∧
    visited (ql_push [[1, 2, 3, 4, 5, 6, 7, 8, 9, 10, 11, 12, 13, 14]] 15).1
      = [1, 2, 3, 4, 5, 6, 7, 8, 9, 10, 11, 12, 13, 14, 15] ∧
    (ql_push [[1, 2, 3, 4, 5, 6, 7, 8, 9, 10, 11, 12, 13, 14]] 15).2 = [[15]] :=
  ⟨by simp [bounded],
    (ql_push_appends [[1, 2, 3, 4, 5, 6, 7, 8, 9, 10, 11, 12, 13, 14]] 15
      (by simp [bounded])).1,
    by decide⟩

/-- C6 (fails on the code): the chain with nodes of 10, 9 and 3 elements
satisfies the density invariant and 12 is an index within `0 .. ql_length`, yet
`ql_insert` at index 12 does not return, so there is no chain for the following
`ql_delete` to restore. -/
theorem ql_insert_delete_roundtrip_undefined :
    density [[0, 1, 2, 3, 4, 5, 6, 7, 8, 9], [10, 11, 12, 13, 14, 15, 16, 17, 18],
      [19, 20, 21]] ∧
    (0 : Int) ≤ 12 ∧
    12 ≤ ql_length [[0, 1, 2, 3, 4, 5, 6, 7, 8, 9], [10, 11, 12, 13, 14, 15, 16, 17, 18],
      [19, 20, 21]] ∧
    (ql_insert [[0, 1, 2, 3, 4, 5, 6, 7, 8, 9], [10, 11, 12, 13, 14, 15, 16, 17, 18],
      [19, 20, 21]] 12 (99 : Nat)).map (fun r => ql_delete r.2 12) = none := by
  refine ⟨by simp [density], by decide, by decide, ?_⟩
  rw [ql_insert_gap _ _ 12 99 (by decide) (by decide)]
  rfl

/-- C7: on a chain whose nodes hold at most 14 elements, `ql_get` returns an
element exactly for the indices `0 ≤ index < ql_length`, and then it is the
element at that position of the sequence `ql_foreach` visits; for an index at
or past the length the descent reaches the chain end and nothing is returned. -/
theorem ql_get_agrees_with_foreach (l : quicklist α) (index : Int) (_hb : bounded l) :
    ((∃ x, ql_get l index = some x) ↔ (0 ≤ index ∧ index < ql_length l)) ∧
    (0 ≤ index → index < ql_length l → ql_get l index = (visited l)[index.toNat]?) ∧
    (ql_length l ≤ index → ql_get l index = none) := by
  refine ⟨⟨?_, ?_⟩, ?_, ?_⟩
  · rintro ⟨x, hx⟩
    by_contra hc
    have hn : index < 0 ∨ ql_length l ≤ index := by omega
    rw [ql_get_none l index hn] at hx
    exact absurd hx (by simp)
  · rintro ⟨h0, h1⟩
    obtain ⟨x, hx, _⟩ := ql_get_of_lt l index h0 h1
    exact ⟨x, hx⟩
  · intro h0 h1
    obtain ⟨x, hx, hy⟩ := ql_get_of_lt l index h0 h1
    rw [hx, hy]
  · intro h
    exact ql_get_none l index (Or.inr h)

theorem ql_get_agrees_with_foreach_witness :
    bounded [[10, 20, 30], [40, 50]] ∧
    ql_get [[10, 20, 30], [40, 50]] 3 = some 40 ∧
    ql_get [[10, 20, 30], [40, 50]] 5 = none :=
  ⟨by simp [bounded],
    by
      rw [(ql_get_agrees_with_foreach [[10, 20, 30], [40, 50]] 3 (by simp [bounded])).2.1
        (by decide) (by decide)]
      rfl,
    (ql_get_agrees_with_foreach [[10, 20, 30], [40, 50]] 5 (by simp [bounded])).2.2
      (by decide)⟩

section SetClaims

variable [LinearOrder α]

/-- C8: on a chain with no empty node, at most 14 elements per node and a
strictly ascending visited sequence, `ql_set_insert` returns, and afterwards the
visited sequence is again strictly ascending (hence without duplicates) and its
elements are exactly the original ones together with `v`. -/
theorem ql_set_insert_keeps_sorted (l : quicklist α) (v : α) (hn : nonempty_nodes l)
    (hb : bounded l) (hs : (visited l).Pairwise (· < ·)) :
    ∃ rc r, ql_set_insert l v = some (rc, r) ∧ (visited r).Pairwise (· < ·) ∧
      (visited r).Nodup ∧ ∀ y, y ∈ visited r ↔ y = v ∨ y ∈ visited l := by
  obtain ⟨rc, r, e, _, _, h⟩ := ql_set_insert_spec l v hn hb hs
  have key : (visited r).Pairwise (· < ·) ∧ ∀ y, y ∈ visited r ↔ y = v ∨ y ∈ visited l := by
    rcases h with ⟨_, h2, h3⟩ | ⟨_, h2⟩
    · rw [h3]
      refine ⟨hs, fun y => ⟨fun hy => Or.inr hy, fun hy => ?_⟩⟩
      rcases hy with hy | hy
      · rw [hy]
        exact h2
      · exact hy
    · exact ⟨h2.sorted hs, h2.mem_iff⟩
  exact ⟨rc, r, e, key.1, key.1.nodup, key.2⟩

theorem ql_set_insert_keeps_sorted_witness :
    ql_set_insert ([] : quicklist Nat) 5 = some (0, [[5]]) ∧
    ql_set_insert [[5]] 1 = some (0, [[1, 5]]) ∧
    ql_set_insert [[1, 5]] 3 = some (0, [[1, 3, 5]]) ∧
    visited [[1, 3, 5]] = [1, 3, 5] ∧
    ∃ rc r, ql_set_insert [[1, 5]] 3 = some (rc, r) ∧ (visited r).Pairwise (· < ·) ∧
      (visited r).Nodup ∧ ∀ y, y ∈ visited r ↔ y = 3 ∨ y ∈ visited [[1, 5]] :=
  ⟨by simp [ql_set_insert, ql_push],
    by simp [ql_set_insert, ql_set_insert_loop, ql_insert],
    by simp [ql_set_insert, ql_set_insert_loop, ql_insert],
    by simp,
    ql_set_insert_keeps_sorted [[1, 5]] 3 (by simp [nonempty_nodes]) (by simp [bounded])
      (by simp)⟩

/-- C9: on a strictly ascending chain with no empty node (and, as for every
node, at most 14 elements per node), `ql_set_insert` returns 1 exactly when `v`
already occurs, and then the chain is unchanged; otherwise it returns 0 and the
length grows by 1.  Inserting `v` again into the result returns 1 and changes
nothing. -/
theorem ql_set_insert_reports_duplicates (l : quicklist α) (v : α) (hn : nonempty_nodes l)
    (hb : bounded l) (hs : (visited l).Pairwise (· < ·)) :
    ∃ rc r, ql_set_insert l v = some (rc, r) ∧ (rc = 1 ↔ v ∈ visited l) ∧
      (v ∈ visited l → rc = 1 ∧ r = l) ∧
      (v ∉ visited l → rc = 0 ∧ ql_length r = ql_length l + 1) ∧
      ql_set_insert r v = some (1, r) := by
  obtain ⟨rc, r, e, hnr, hbr, h⟩ := ql_set_insert_spec l v hn hb hs
  have hsr : (visited r).Pairwise (· < ·) := by
    rcases h with ⟨_, _, h3⟩ | ⟨_, h2⟩
    · rw [h3]
      exact hs
    · exact h2.sorted hs
  have hvr : v ∈ visited r := by
    rcases h with ⟨_, h2, h3⟩ | ⟨_, h2⟩
    · rw [h3]
      exact h2
    · exact (h2.mem_iff v).mpr (Or.inl rfl)
  have again : ql_set_insert r v = some (1, r) := by
    obtain ⟨rc2, r2, e2, _, _, h2⟩ := ql_set_insert_spec r v hnr hbr hsr
    rcases h2 with ⟨a1, _, a3⟩ | ⟨_, a2⟩
    · rw [e2, a1, a3]
    · exact absurd hvr a2.not_mem
  refine ⟨rc, r, e, ?_, ?_, ?_, again⟩
  · rcases h with ⟨h1, h2, _⟩ | ⟨h1, h2⟩
    · exact ⟨fun _ => h2, fun _ => h1⟩
    · refine ⟨fun hc => ?_, fun hc => absurd hc h2.not_mem⟩
      rw [h1] at hc
      exact absurd hc (by decide)
  · intro hv
    rcases h with ⟨h1, _, h3⟩ | ⟨_, h2⟩
    · exact ⟨h1, h3⟩
    · exact absurd hv h2.not_mem
  · intro hv
    rcases h with ⟨_, h2, _⟩ | ⟨h1, h2⟩
    · exact absurd h2 hv
    · refine ⟨h1, ?_⟩
      rw [ql_length_eq, ql_length_eq, h2.length]
      simp

theorem ql_set_insert_reports_duplicates_witness :
    ql_set_insert [[1, 3, 5]] (3 : Nat) = some (1, [[1, 3, 5]]) ∧
    ∃ rc r, ql_set_insert [[1, 3, 5]] (3 : Nat) = some (rc, r) ∧
      (rc = 1 ↔ 3 ∈ visited [[1, 3, 5]]) ∧
      (3 ∈ visited [[1, 3, 5]] → rc = 1 ∧ r = [[1, 3, 5]]) ∧
      (3 ∉ visited [[1, 3, 5]] → rc = 0 ∧ ql_length r = ql_length [[1, 3, 5]] + 1) ∧
      ql_set_insert r 3 = some (1, r) :=
  ⟨by simp [ql_set_insert, ql_set_insert_loop],
    ql_set_insert_reports_duplicates [[1, 3, 5]] 3 (by simp [nonempty_nodes])
      (by simp [bounded]) (by simp)⟩

/-- C10: on a chain with no empty node and a strictly ascending visited
sequence, `ql_set_find` returns 1 exactly when `v` occurs in the chain and 0
otherwise.  When it returns 1 and `qip` is not `NULL`, the cursor is set to a
node of the chain and `*qip` to an offset with `0 ≤ offset < num_elements` and
`elements[offset] = v`.  When it returns 0, or `qip` is `NULL`, the cursor and
`*qip` are unchanged. -/
theorem ql_set_find_decides_membership (l : quicklist α) (qip : Option Int) (v : α)
    (hn : nonempty_nodes l) (hs : (visited l).Pairwise (· < ·)) :
    ∃ rc cur qi, ql_set_find l qip v = some (rc, cur, qi) ∧ (rc = 1 ∨ rc = 0) ∧
      (rc = 1 ↔ v ∈ visited l) ∧
      (rc = 1 → qip ≠ none → ∃ pre nd rest off, l = pre ++ nd :: rest ∧ cur = nd :: rest ∧
        qi = some off ∧ 0 ≤ off ∧ off < (nd.length : Int) ∧ nd[off.toNat]? = some v) ∧
      (rc = 0 → cur = l ∧ qi = qip) ∧
      (qip = none → cur = l ∧ qi = none) := by
  obtain ⟨p, s, e1, e2, e3, e4⟩ := ql_set_find_skip_spec l v hn hs
  have hp : v ∉ visited p := fun hv => lt_irrefl v (e3 v hv)
  unfold ql_set_find
  rw [e2]
  cases s with
  | nil =>
    refine ⟨0, l, qip, rfl, Or.inr rfl, ?_, fun h => absurd h (by decide),
      fun _ => ⟨rfl, rfl⟩, fun h => ⟨rfl, h⟩⟩
    refine ⟨fun h => absurd h (by decide), fun hv => ?_⟩
    rw [e1, List.append_nil] at hv
    exact absurd hv hp
  | cons nd rest =>
    have hv : visited l = visited p ++ (nd ++ visited rest) := by
      rw [e1, visited_append, visited_cons]
    rw [hv] at hs
    have hs2 := (List.pairwise_append.mp hs).2.1
    have hsnd := (List.pairwise_append.mp hs2).1
    obtain ⟨last, hl1, hl2⟩ := e4 nd rest rfl
    rcases ql_set_find_scan_spec nd 0 v hsnd with ⟨off, a1, a2, a3, a4⟩ | ⟨a1, a2⟩
    · have hmem : v ∈ visited l := by
        rw [hv]
        exact List.mem_append_right _ (List.mem_append_left _ (List.getElem?_mem a4))
      rw [Int.sub_zero] at a4
      rw [Int.zero_add] at a3
      cases qip with
      | none =>
        refine ⟨1, l, none, by simp only [a1], Or.inl rfl, ⟨fun _ => hmem, fun _ => rfl⟩,
          fun _ h => absurd rfl h, fun h => absurd h (by decide), fun _ => ⟨rfl, rfl⟩⟩
      | some q =>
        refine ⟨1, nd :: rest, some off, by simp only [a1], Or.inl rfl,
          ⟨fun _ => hmem, fun _ => rfl⟩, fun _ _ => ⟨p, nd, rest, off, e1, rfl, rfl, a2, a3, a4⟩,
          fun h => absurd h (by decide), fun h => absurd h (by simp)⟩
    · refine ⟨0, l, qip, by simp only [a1], Or.inr rfl, ?_, fun h => absurd h (by decide),
        fun _ => ⟨rfl, rfl⟩, fun h => ⟨rfl, h⟩⟩
      refine ⟨fun h => absurd h (by decide), fun hm => ?_⟩
      rw [hv] at hm
      rcases List.mem_append.mp hm with hm | hm
      · exact absurd hm hp
      · rcases List.mem_append.mp hm with hm | hm
        · exact absurd hm a2
        · have := (List.pairwise_append.mp hs2).2.2 last hl1 v hm
          exact absurd (lt_of_le_of_lt hl2 this) (lt_irrefl v)

theorem ql_set_find_decides_membership_witness :
    ql_set_find [[1, 3, 5], [7, 9]] (some 0) (9 : Nat) = some (1, [[7, 9]], some 1) ∧
    ∃ rc cur qi, ql_set_find [[1, 3, 5], [7, 9]] (some 0) (9 : Nat) = some (rc, cur, qi) ∧
      (rc = 1 ∨ rc = 0) ∧
      (rc = 1 ↔ 9 ∈ visited [[1, 3, 5], [7, 9]]) ∧
      (rc = 1 → some (0 : Int) ≠ none → ∃ pre nd rest off,
        [[1, 3, 5], [7, 9]] = pre ++ nd :: rest ∧ cur = nd :: rest ∧
        qi = some off ∧ 0 ≤ off ∧ off < (nd.length : Int) ∧ nd[off.toNat]? = some 9) ∧
      (rc = 0 → cur = [[1, 3, 5], [7, 9]] ∧ qi = some 0) ∧
      (some (0 : Int) = none → cur = [[1, 3, 5], [7, 9]] ∧ qi = none) :=
  ⟨by decide,
    ql_set_find_decides_membership [[1, 3, 5], [7, 9]] (some 0) 9 (by simp [nonempty_nodes])
      (by simp)⟩

end SetClaims

/-! ## Sorted-set layer: `ql_set_remove` -/

theorem ql_delete_nonempty (l : quicklist α) (i : Int) (hn : nonempty_nodes l) :
    nonempty_nodes (ql_delete l i).2 := by
  induction l generalizing i with
  | nil =>
    unfold ql_delete
    split <;> exact hn
  | cons ql next ih =>
    have hn2 := nonempty_nodes_cons.mp hn
    unfold ql_delete
    split
    · exact hn
    · split
      · exact nonempty_nodes_cons.mpr ⟨hn2.1, ih _ hn2.2⟩
      · dsimp only
        split
        · exact hn2.2
        · rename_i hz
          have hne : ql.take i.toNat ++ ql.drop (i.toNat + 1) ≠ [] :=
            fun h => hz (by rw [h]; rfl)
          split
          · exact nonempty_nodes_cons.mpr ⟨hne, hn2.2⟩
          · rename_i qn rest
            have hn3 := nonempty_nodes_cons.mp hn2.2
            split
            · split
              · rename_i h7 h14
                refine nonempty_nodes_cons.mpr
                  ⟨fun h => hne (List.append_eq_nil.mp h).1, nonempty_nodes_cons.mpr ⟨?_, hn3.2⟩⟩
                apply List.ne_nil_of_length_pos
                simp only [QL_MAXSIZE, QL_LIMIT, List.length_drop] at *
                omega
              · exact nonempty_nodes_cons.mpr ⟨fun h => hne (List.append_eq_nil.mp h).1, hn3.2⟩
            · exact nonempty_nodes_cons.mpr ⟨hne, hn2.2⟩

theorem ql_set_remove_loop_spec [DecidableEq α] (ql : List α) (next : quicklist α) (v : α)
    (es pre : List α) (hq : ql = pre ++ es) (hpre : v ∉ pre) :
    (v ∉ es ∧ ql_set_remove_loop (ql :: next) v es.length (pre.length : Int) = some none) ∨
    (∃ k : Nat, v ∈ es ∧
      ql_set_remove_loop (ql :: next) v es.length (pre.length : Int)
        = some (some (1, (ql_delete (ql :: next) (k : Int)).2)) ∧
      (visited (ql :: next)).eraseIdx k = (visited (ql :: next)).erase v) := by
  induction es generalizing pre with
  | nil =>
    left
    exact ⟨List.not_mem_nil v, rfl⟩
  | cons e es ih =>
    have hget : ql_get (ql :: next) (pre.length : Int) = some e := by
      rw [ql_get_eq, if_pos (Int.natCast_nonneg _), visited_cons, hq, Int.toNat_ofNat,
        List.append_assoc, List.getElem?_append_right (le_refl _), Nat.sub_self,
        List.cons_append, List.getElem?_cons_zero]
    rw [List.length_cons]
    unfold ql_set_remove_loop
    rw [hget]
    dsimp only
    by_cases hev : e = v
    · right
      rw [if_pos hev]
      refine ⟨pre.length, by rw [hev]; exact List.mem_cons_self _ _, ?_, ?_⟩
      · rw [if_pos (ql_delete_rc _ _ (Int.natCast_nonneg _))]
      · rw [visited_cons, hq, hev, List.append_assoc,
          List.eraseIdx_append_of_length_le (le_refl _), Nat.sub_self,
          List.erase_append_right _ hpre]
        simp
    · rw [if_neg hev]
      have hpre2 : v ∉ pre ++ [e] := by
        intro h
        rcases List.mem_append.mp h with h | h
        · exact hpre h
        · exact hev (List.mem_singleton.mp h).symm
      have := ih (pre ++ [e]) (by rw [hq]; simp) hpre2
      rw [List.length_append, List.length_singleton, Nat.cast_add, Nat.cast_one] at this
      rcases this with ⟨h1, h2⟩ | ⟨k, h1, h2, h3⟩
      · left
        refine ⟨?_, h2⟩
        intro h
        rcases List.mem_cons.mp h with h | h
        · exact hev h.symm
        · exact h1 h
      · right
        exact ⟨k, List.mem_cons_of_mem _ h1, h2, h3⟩

theorem ql_set_remove_spec [DecidableEq α] (l : quicklist α) (v : α) :
    ∃ rc r, ql_set_remove l v = some (rc, r) ∧ visited r = (visited l).erase v ∧
      ((rc = 1 ∧ v ∈ visited l) ∨ (rc = 0 ∧ v ∉ visited l ∧ r = l)) ∧
      (bounded l → bounded r) ∧ (nonempty_nodes l → nonempty_nodes r) := by
  induction l with
  | nil =>
    exact ⟨0, [], rfl, by simp, Or.inr ⟨rfl, by simp, rfl⟩, fun h => h, fun h => h⟩
  | cons ql next ih =>
    unfold ql_set_remove
    rcases ql_set_remove_loop_spec ql next v ql [] rfl (List.not_mem_nil v) with
      ⟨h1, h2⟩ | ⟨k, h1, h2, h3⟩
    · rw [List.length_nil, Nat.cast_zero] at h2
      rw [h2]
      obtain ⟨rc, r, e1, e2, e3, e4, e5⟩ := ih
      refine ⟨rc, ql :: r, by simp only [e1, Option.map_some'], ?_, ?_, ?_, ?_⟩
      · rw [visited_cons, visited_cons, e2, List.erase_append_right _ h1]
      · rcases e3 with ⟨a1, a2⟩ | ⟨a1, a2, a3⟩
        · left
          exact ⟨a1, by rw [visited_cons]; exact List.mem_append_right _ a2⟩
        · right
          refine ⟨a1, ?_, by rw [a3]⟩
          rw [visited_cons]
          intro h
          rcases List.mem_append.mp h with h | h
          · exact h1 h
          · exact a2 h
      · intro hb
        have hb2 := bounded_cons.mp hb
        exact bounded_cons.mpr ⟨hb2.1, e4 hb2.2⟩
      · intro hn
        have hn2 := nonempty_nodes_cons.mp hn
        exact nonempty_nodes_cons.mpr ⟨hn2.1, e5 hn2.2⟩
    · rw [List.length_nil, Nat.cast_zero] at h2
      rw [h2]
      refine ⟨1, _, rfl, ?_, Or.inl ⟨rfl, ?_⟩, fun hb => ql_delete_bounded _ _ hb,
        fun hn => ql_delete_nonempty _ _ hn⟩
      · rw [ql_delete_visited _ _ (Int.natCast_nonneg _), Int.toNat_ofNat, h3]
      · rw [visited_cons]
        exact List.mem_append_left _ h1

/-! ## Cursor advance -/

theorem ql_advance_spec (l : quicklist α) (i s : Int) (h0 : 0 ≤ i) (hs : 0 ≤ s)
    (hmax : i + s ≤ INT_MAX) :
    (i + s < ql_length l → ∃ pre nd rest i1, l = pre ++ nd :: rest ∧
        ql_advance l i s = some (0, nd :: rest, i1) ∧ 0 ≤ i1 ∧ i1 < (nd.length : Int) ∧
        nd[i1.toNat]? = ql_get l (i + s) ∧ i1 + ql_length pre = i + s) ∧
    (ql_length l ≤ i + s → ∃ i1, ql_advance l i s = some (ERANGE, [], i1)) := by
  induction l generalizing i s with
  | nil =>
    refine ⟨fun h => ?_, fun _ => ⟨i, rfl⟩⟩
    simp only [ql_length] at h
    omega
  | cons ql next ih =>
    have hnn := ql_length_nonneg next
    unfold ql_advance
    rw [if_neg (by omega : ¬ (i < 0 ∨ s < 0)), if_neg (by omega : ¬ (i + s > INT_MAX))]
    by_cases hlt : i + s < (ql.length : Int)
    · rw [if_pos hlt]
      refine ⟨fun _ => ⟨[], ql, next, i + s, rfl, rfl, by omega, hlt, ?_, ?_⟩, fun h => ?_⟩
      · unfold ql_get
        rw [if_pos hlt, if_pos (by omega : 0 ≤ i + s)]
      · simp only [ql_length]
        omega
      · simp only [ql_length] at h
        omega
    · rw [if_neg hlt]
      have hih := ih (i - (ql.length : Int) + s) 0 (by omega) (le_refl 0)
        (by simp only [INT_MAX] at *; omega)
      rw [Int.add_zero] at hih
      have hget : ql_get (ql :: next) (i + s) = ql_get next (i - (ql.length : Int) + s) := by
        conv_lhs => unfold ql_get
        rw [if_neg hlt]
        congr 1
        omega
      refine ⟨fun h => ?_, fun h => ?_⟩
      · simp only [ql_length] at h
        obtain ⟨pre, nd, rest, i1, a1, a2, a3, a4, a5, a6⟩ := hih.1 (by omega)
        refine ⟨ql :: pre, nd, rest, i1, by rw [a1]; rfl, a2, a3, a4, ?_, ?_⟩
        · rw [a5, hget]
        · simp only [ql_length]
          omega
      · simp only [ql_length] at h
        exact hih.2 (by omega)

/-! ## Deletion outside the valid range -/

theorem ql_delete_negative (l : quicklist α) (i : Int) (h : i < 0) :
    ql_delete l i = (EINVAL, l) := by
  cases l with
  | nil => simp [ql_delete, h]
  | cons ql next => simp [ql_delete, h]

theorem ql_delete_past_end (l : quicklist α) (i : Int) (h : ql_length l ≤ i) :
    ql_delete l i = (0, l) := by
  induction l generalizing i with
  | nil =>
    simp only [ql_length] at h
    simp [ql_delete, Int.not_lt.mpr h]
  | cons ql next ih =>
    have hnn := ql_length_nonneg next
    simp only [ql_length] at h
    unfold ql_delete
    rw [if_neg (by omega : ¬ i < 0), if_pos (by omega : i ≥ (ql.length : Int)),
      ih (i - (ql.length : Int)) (by omega)]

/-! ## Lists built by pushes -/

theorem ql_push_last (init : quicklist α) (last : List α) (x : α) :
    ql_push (init ++ [last]) x
      = if last.length = QL_MAXSIZE then (init ++ [last, [x]], [[x]])
        else (init ++ [last ++ [x]], [last ++ [x]]) := by
  induction init with
  | nil =>
    simp only [List.nil_append]
    unfold ql_push
    by_cases h : last.length = QL_MAXSIZE
    · rw [if_pos (Or.inr h), if_pos h]
      rfl
    · rw [if_neg (by simp [h]), if_neg h]
  | cons a init ih =>
    rw [List.cons_append]
    unfold ql_push
    have hne : (init ++ [last]).isEmpty = false := by
      cases init <;> rfl
    rw [if_pos (Or.inl hne)]
    dsimp only
    rw [ih]
    split <;> rfl

theorem packed_push (l : quicklist α) (x : α) (h : l = [] ∨ packed l) :
    packed (ql_push l x).1 := by
  rcases h with h | ⟨init, last, h1, h2, h3, h4⟩
  · rw [h]
    exact ⟨[], [x], rfl, by simp, by simp, by simp⟩
  · rw [h1, ql_push_last]
    by_cases hf : last.length = QL_MAXSIZE
    · rw [if_pos hf]
      refine ⟨init ++ [last], [x], by simp, ?_, by simp, by simp⟩
      intro nd hnd
      rcases List.mem_append.mp hnd with hnd | hnd
      · exact h2 nd hnd
      · rw [List.mem_singleton.mp hnd]
        exact hf
    · rw [if_neg hf]
      refine ⟨init, last ++ [x], rfl, h2, by simp, ?_⟩
      simp only [QL_MAXSIZE, List.length_append, List.length_singleton] at *
      omega

theorem push_all_visited (l : quicklist α) (xs : List α) :
    visited (push_all l xs) = visited l ++ xs := by
  induction xs generalizing l with
  | nil => simp [push_all]
  | cons x xs ih =>
    have := ih (ql_push l x).1
    simp only [push_all, List.foldl_cons] at this ⊢
    rw [this, ql_push_visited]
    simp

theorem push_all_packed (l : quicklist α) (xs : List α) (h : packed l ∨ (l = [] ∧ xs ≠ [])) :
    packed (push_all l xs) := by
  induction xs generalizing l with
  | nil =>
    rcases h with h | ⟨_, h⟩
    · exact h
    · exact absurd rfl h
  | cons x xs ih =>
    have hp : packed (ql_push l x).1 := by
      rcases h with h | ⟨h, _⟩
      · exact packed_push l x (Or.inr h)
      · exact packed_push l x (Or.inl h)
    have := ih (ql_push l x).1 (Or.inl hp)
    simpa only [push_all, List.foldl_cons] using this

theorem packed_density (l : quicklist α) (h : packed l) : density l := by
  obtain ⟨init, last, h1, h2, h3, h4⟩ := h
  subst h1
  induction init with
  | nil =>
    simp only [List.nil_append, density]
    exact ⟨h3, h4⟩
  | cons a init ih =>
    have ha := h2 a (List.mem_cons_self _ _)
    have hrest := ih (fun nd hnd => h2 nd (List.mem_cons_of_mem _ hnd))
    cases init with
    | nil =>
      simp only [List.cons_append, List.nil_append, density] at hrest ⊢
      exact ⟨by rw [ha]; decide, by rw [ha], hrest⟩
    | cons b init =>
      simp only [List.cons_append, density] at hrest ⊢
      exact ⟨by rw [ha]; decide, by rw [ha], hrest⟩

theorem packed_length (l : quicklist α) (h : packed l) :
    ∃ m : Nat, 1 ≤ m ∧ m ≤ 14 ∧ (l.getLast?.map List.length = some m) ∧
      (visited l).length = 14 * (l.length - 1) + m ∧ 1 ≤ l.length ∧
      ∀ k, k + 1 < l.length → (l[k]?).map List.length = some 14 := by
  obtain ⟨init, last, h1, h2, h3, h4⟩ := h
  subst h1
  have hv : (visited init).length = 14 * init.length := by
    clear h3 h4
    induction init with
    | nil => simp
    | cons a init ih =>
      have ha := h2 a (List.mem_cons_self _ _)
      have := ih (fun nd hnd => h2 nd (List.mem_cons_of_mem _ hnd))
      simp only [visited_cons, List.length_append, List.length_cons, this, ha, QL_MAXSIZE]
      omega
  refine ⟨last.length, h3, h4, by simp, ?_, by simp, ?_⟩
  · rw [visited_append, List.length_append, hv]
    simp
  · intro k hk
    simp only [List.length_append, List.length_singleton] at hk
    have hk2 : k < init.length := by omega
    rw [List.getElem?_append_left hk2, List.getElem?_eq_getElem hk2]
    simp only [Option.map_some', Option.some.injEq]
    exact h2 _ (List.getElem_mem _)

/-! ## Node sizes stay within 1..14 -/

theorem ql_push_keeps_sizes (l : quicklist α) (x : α) :
    (nonempty_nodes l → nonempty_nodes (ql_push l x).1) ∧
    (bounded l → bounded (ql_push l x).1) := by
  induction l with
  | nil => exact ⟨fun _ => by simp [ql_push, nonempty_nodes], fun _ => by simp [ql_push, bounded]⟩
  | cons ql next ih =>
    unfold ql_push
    split
    · refine ⟨fun hn => ?_, fun hb => ?_⟩
      · have hn2 := nonempty_nodes_cons.mp hn
        exact nonempty_nodes_cons.mpr ⟨hn2.1, ih.1 hn2.2⟩
      · have hb2 := bounded_cons.mp hb
        exact bounded_cons.mpr ⟨hb2.1, ih.2 hb2.2⟩
    · rename_i h
      refine ⟨fun hn => ?_, fun hb => ?_⟩
      · exact nonempty_nodes_cons.mpr ⟨by simp, (nonempty_nodes_cons.mp hn).2⟩
      · have hb2 := bounded_cons.mp hb
        refine bounded_cons.mpr ⟨?_, hb2.2⟩
        have h14 : ¬ ql.length = QL_MAXSIZE := fun hc => h (Or.inr hc)
        have := hb2.1
        simp only [QL_MAXSIZE, List.length_append, List.length_singleton] at *
        omega

/-- Below `QL_MAXSIZE` the call either runs into the undefined `memmove` or the
index is an offset into the head node. -/
theorem ql_insert_head_cases (ql : List α) (next : quicklist α) (i : Int) (x : α)
    (h14 : i < (QL_MAXSIZE : Int)) (hb : ql.length ≤ QL_MAXSIZE) :
    ql_insert (ql :: next) i x = none ∨ (0 ≤ i ∧ i ≤ (ql.length : Int)) := by
  by_cases hc : 0 ≤ i ∧ i ≤ (ql.length : Int)
  · exact Or.inr hc
  · left
    by_cases hr : ql.length < QL_MAXSIZE
    · rw [ql_insert_room ql next i x h14 hr, if_neg hc]
    · have hfull : ql.length = QL_MAXSIZE := by
        simp only [QL_MAXSIZE] at *
        omega
      rw [ql_insert_full ql next i x h14 hfull]
      simp only [QL_MAXSIZE, QL_LIMIT, Nat.cast_ofNat] at *
      have h0 : ¬ 0 ≤ i := by omega
      rw [if_pos (by omega : i ≤ 7), if_neg h0]

theorem ql_insert_nonempty (l : quicklist α) (i : Int) (x : α) (rc : Int) (r : quicklist α)
    (hn : nonempty_nodes l) (hb : bounded l) (h : ql_insert l i x = some (rc, r)) :
    nonempty_nodes r := by
  induction l generalizing i rc r with
  | nil =>
    rw [ql_insert_nil] at h
    split at h
    · simp only [Option.some.injEq, Prod.mk.injEq] at h
      rw [← h.2]
      simp [nonempty_nodes]
    · simp only [Option.some.injEq, Prod.mk.injEq] at h
      rw [← h.2]
      exact hn
  | cons ql next ih =>
    have hn2 := nonempty_nodes_cons.mp hn
    have hb2 := bounded_cons.mp hb
    by_cases h14 : (QL_MAXSIZE : Int) ≤ i
    · rw [ql_insert_descend ql next i x h14] at h
      cases hrec : ql_insert next (i - (ql.length : Int)) x with
      | none => simp [hrec] at h
      | some p =>
        obtain ⟨rc1, r1⟩ := p
        simp only [hrec, Option.map_some', Option.some.injEq, Prod.mk.injEq] at h
        rw [← h.2]
        exact nonempty_nodes_cons.mpr ⟨hn2.1, ih _ _ _ hn2.2 hb2.2 hrec⟩
    · have h14lt : i < (QL_MAXSIZE : Int) := Int.not_le.mp h14
      rcases ql_insert_head_cases ql next i x h14lt hb2.1 with hnone | ⟨h0, h1⟩
      · rw [hnone] at h
        exact absurd h (by simp)
      · have hi : ((i.toNat : Nat) : Int) = i := Int.toNat_of_nonneg h0
        obtain ⟨r0, e1, _, _, e4⟩ := ql_insert_in_node ql next i.toNat x (by omega)
          (by simp only [QL_MAXSIZE, Nat.cast_ofNat] at *; omega) hb2.1
        rw [hi, h] at e1
        simp only [Option.some.injEq, Prod.mk.injEq] at e1
        rw [e1.2]
        exact e4 hn2.2

section SetSizes

variable [LinearOrder α]

theorem ql_set_insert_loop_keeps_sizes (ql : List α) (next : quicklist α) (v : α)
    (es : List α) (k : Nat) (hk : k + es.length = ql.length)
    (hn : nonempty_nodes (ql :: next)) (hb : bounded (ql :: next)) (rc : Int) (r : quicklist α)
    (h : ql_set_insert_loop (ql :: next) v es (k : Int) = some (rc, r)) :
    nonempty_nodes r ∧ bounded r := by
  induction es generalizing k with
  | nil =>
    unfold ql_set_insert_loop at h
    simp only [Option.some.injEq, Prod.mk.injEq] at h
    rw [← h.2]
    exact ⟨(ql_push_keeps_sizes _ v).1 hn, (ql_push_keeps_sizes _ v).2 hb⟩
  | cons e es ih =>
    have hb2 := bounded_cons.mp hb
    have hn2 := nonempty_nodes_cons.mp hn
    rw [List.length_cons] at hk
    unfold ql_set_insert_loop at h
    split at h
    · obtain ⟨r0, e1, _, e3, e4⟩ := ql_insert_in_node ql next k v (by omega)
        (by have := hb2.1; simp only [QL_MAXSIZE] at *; omega) hb2.1
      rw [e1] at h
      simp only [Option.map_some', Option.some.injEq, Prod.mk.injEq] at h
      rw [← h.2]
      exact ⟨e4 hn2.2, e3 hb2.2⟩
    · split at h
      · simp only [Option.some.injEq, Prod.mk.injEq] at h
        rw [← h.2]
        exact ⟨hn, hb⟩
      · exact ih (k + 1) (by omega) (by exact_mod_cast h)

theorem ql_set_insert_keeps_sizes (l : quicklist α) (v : α) (rc : Int) (r : quicklist α)
    (hn : nonempty_nodes l) (hb : bounded l) (h : ql_set_insert l v = some (rc, r)) :
    nonempty_nodes r ∧ bounded r := by
  induction l generalizing rc r with
  | nil =>
    simp only [ql_set_insert, ql_push, Option.some.injEq, Prod.mk.injEq] at h
    rw [← h.2]
    exact ⟨by simp [nonempty_nodes], by simp [bounded]⟩
  | cons ql next ih =>
    have hn2 := nonempty_nodes_cons.mp hn
    have hb2 := bounded_cons.mp hb
    have hrec : ∀ rc r, (ql_set_insert next v).map (fun r => (r.1, ql :: r.2)) = some (rc, r) →
        nonempty_nodes r ∧ bounded r := by
      intro rc r h
      cases hx : ql_set_insert next v with
      | none => simp [hx] at h
      | some p =>
        obtain ⟨rc1, r1⟩ := p
        simp only [hx, Option.map_some', Option.some.injEq, Prod.mk.injEq] at h
        have := ih rc1 r1 hn2.2 hb2.2 hx
        rw [← h.2]
        exact ⟨nonempty_nodes_cons.mpr ⟨hn2.1, this.1⟩, bounded_cons.mpr ⟨hb2.1, this.2⟩⟩
    have hloop : ∀ rc r, ql_set_insert_loop (ql :: next) v ql 0 = some (rc, r) →
        nonempty_nodes r ∧ bounded r := by
      intro rc r h
      exact ql_set_insert_loop_keeps_sizes ql next v ql 0 (by simp) hn hb rc r
        (by exact_mod_cast h)
    unfold ql_set_insert at h
    split at h
    · split at h
      · split at h
        · exact hrec rc r h
        · split at h
          · exact absurd h (by simp)
          · exact hrec rc r h
          · rename_i hlen _ _
            simp only [Option.some.injEq, Prod.mk.injEq] at h
            rw [← h.2]
            refine ⟨nonempty_nodes_cons.mpr ⟨by simp, hn2.2⟩, bounded_cons.mpr ⟨?_, hb2.2⟩⟩
            have := hb2.1
            simp only [QL_MAXSIZE, List.length_append, List.length_singleton] at *
            omega
      · exact hloop rc r h
    · exact hloop rc r h

theorem Reachable.sizes {l : quicklist α} (h : Reachable l) : nonempty_nodes l ∧ bounded l := by
  induction h with
  | empty => exact ⟨by simp [nonempty_nodes], by simp [bounded]⟩
  | push l x _ ih => exact ⟨(ql_push_keeps_sizes l x).1 ih.1, (ql_push_keeps_sizes l x).2 ih.2⟩
  | insert l i x r _ heq ih =>
    refine ⟨ql_insert_nonempty l i x 0 r ih.1 ih.2 heq, ?_⟩
    rcases ql_insert_returns l i x 0 r ih.2 heq with h | h
    · exact h.2.2.2.1
    · exact absurd h.1 (by decide)
  | delete l i _ _ ih => exact ⟨ql_delete_nonempty l i ih.1, ql_delete_bounded l i ih.2⟩
  | set_insert l v rc r _ heq ih => exact ql_set_insert_keeps_sizes l v rc r ih.1 ih.2 heq
  | set_remove l v rc r _ heq ih =>
    obtain ⟨rc1, r1, e1, _, _, e4, e5⟩ := ql_set_remove_spec l v
    rw [heq] at e1
    simp only [Option.some.injEq, Prod.mk.injEq] at e1
    rw [e1.2]
    exact ⟨e5 ih.1, e4 ih.2⟩

end SetSizes

/-! ## Replace -/

theorem ql_replace_spec (l : quicklist α) (i : Int) (v : α) (h0 : 0 ≤ i)
    (h1 : i < ql_length l) :
    ∃ orig r, ql_replace l i v = some (orig, r) ∧ ql_get l i = some orig ∧
      visited r = (visited l).set i.toNat v ∧ r.map List.length = l.map List.length := by
  induction l generalizing i with
  | nil =>
    simp only [ql_length] at h1
    omega
  | cons ql next ih =>
    unfold ql_replace ql_get
    by_cases hlt : i < (ql.length : Int)
    · have hn : i.toNat < ql.length := by omega
      rw [if_pos hlt, if_pos h0, if_pos hlt, if_pos h0, List.getElem?_eq_getElem hn]
      refine ⟨ql[i.toNat], _, rfl, rfl, ?_, ?_⟩
      · rw [visited_cons, visited_cons, List.set_append_left _ _ hn]
      · simp
    · rw [if_neg hlt, if_neg hlt]
      simp only [ql_length] at h1
      obtain ⟨orig, r, e1, e2, e3, e4⟩ := ih (i - (ql.length : Int)) (by omega) (by omega)
      refine ⟨orig, ql :: r, by rw [e1]; rfl, e2, ?_, by simp [e4]⟩
      have hsub : (i - (ql.length : Int)).toNat = i.toNat - ql.length := by omega
      rw [visited_cons, visited_cons, e3, hsub, List.set_append_right _ _ (by omega)]

/-! ## Cost of an insertion -/

theorem ql_insert_cost_nil (i : Int) : ql_insert_cost ([] : quicklist α) i = (1, 0) := by
  rw [ql_insert_cost]

theorem ql_insert_cost_descend (ql : List α) (next : quicklist α) (i : Int)
    (h : (QL_MAXSIZE : Int) ≤ i) :
    ql_insert_cost (ql :: next) i
      = ((ql_insert_cost next (i - (ql.length : Int))).1 + 1,
         (ql_insert_cost next (i - (ql.length : Int))).2) := by
  rw [ql_insert_cost]
  rw [if_pos h]

theorem ql_insert_cost_room (ql : List α) (next : quicklist α) (i : Int)
    (h : i < (QL_MAXSIZE : Int)) (hr : ql.length < QL_MAXSIZE) :
    ql_insert_cost (ql :: next) i = (1, 0) := by
  rw [ql_insert_cost]
  rw [if_neg (Int.not_le.mpr h), if_pos hr]

/-- On a full head node and an index below 14 there are two invocations and
one split: the retry finds a node of 7 elements. -/
theorem ql_insert_cost_full (ql : List α) (next : quicklist α) (i : Int)
    (h : i < (QL_MAXSIZE : Int)) (hr : ql.length = QL_MAXSIZE) :
    ql_insert_cost (ql :: next) i = (2, 1) := by
  have hnr : ¬ ql.length < QL_MAXSIZE := by omega
  have h7 : (ql.take QL_LIMIT).length < QL_MAXSIZE := by
    rw [List.length_take]
    simp only [QL_MAXSIZE, QL_LIMIT] at *
    omega
  have h7d : (ql.drop QL_LIMIT).length < QL_MAXSIZE := by
    rw [List.length_drop]
    simp only [QL_MAXSIZE, QL_LIMIT] at *
    omega
  rw [ql_insert_cost]
  rw [if_neg (Int.not_le.mpr h), if_neg hnr]
  by_cases hi : i ≤ (QL_LIMIT : Int)
  · simp only [if_pos hi]
    rw [ql_insert_cost_room _ _ i h h7]
  · simp only [if_neg hi]
    rw [ql_insert_cost_room _ _ _ (by simp only [QL_MAXSIZE, QL_LIMIT, Nat.cast_ofNat] at *; omega)
      h7d]

theorem ql_insert_cost_bound (l : quicklist α) (i : Int) (hb : bounded l) :
    (ql_insert_cost l i).2 ≤ 1 ∧ (ql_insert_cost l i).1 ≤ l.length + 1 := by
  induction l generalizing i with
  | nil =>
    rw [ql_insert_cost_nil]
    exact ⟨Nat.zero_le _, Nat.le_refl _⟩
  | cons ql next ih =>
    have hb2 := bounded_cons.mp hb
    by_cases h14 : (QL_MAXSIZE : Int) ≤ i
    · rw [ql_insert_cost_descend ql next i h14]
      have := ih (i - (ql.length : Int)) hb2.2
      exact ⟨this.1, by simp only [List.length_cons]; omega⟩
    · have h14lt : i < (QL_MAXSIZE : Int) := Int.not_le.mp h14
      by_cases hr : ql.length < QL_MAXSIZE
      · rw [ql_insert_cost_room ql next i h14lt hr]
        exact ⟨Nat.zero_le _, by simp⟩
      · have hfull : ql.length = QL_MAXSIZE := by
          have := hb2.1
          simp only [QL_MAXSIZE] at *
          omega
        rw [ql_insert_cost_full ql next i h14lt hfull]
        exact ⟨Nat.le_refl _, by simp⟩

/-- The chain an in-node insertion returns has one node more exactly when the
head node was full. -/
theorem ql_insert_in_node_length (ql : List α) (next : quicklist α) (n : Nat) (x : α)
    (hn : n ≤ ql.length) (h14 : n < QL_MAXSIZE) (hb : ql.length ≤ QL_MAXSIZE) :
    ∃ r, ql_insert (ql :: next) (n : Int) x = some (0, r) ∧
      r.length = next.length + 1 + (ql_insert_cost (ql :: next) (n : Int)).2 := by
  have hlt : (n : Int) < (QL_MAXSIZE : Int) := by exact_mod_cast h14
  by_cases hr : ql.length < QL_MAXSIZE
  · rw [ql_insert_room ql next n x hlt hr, ql_insert_cost_room ql next n hlt hr,
      if_pos ⟨by omega, by omega⟩]
    exact ⟨_, rfl, rfl⟩
  · have hfull : ql.length = QL_MAXSIZE := by
      simp only [QL_MAXSIZE] at *
      omega
    rw [ql_insert_full ql next n x hlt hfull, ql_insert_cost_full ql next n hlt hfull]
    split
    · rw [if_pos (by omega)]
      exact ⟨_, rfl, rfl⟩
    · exact ⟨_, rfl, rfl⟩

theorem ql_insert_nodes (l : quicklist α) (i : Int) (x : α) (rc : Int) (r : quicklist α)
    (hb : bounded l) (h : ql_insert l i x = some (rc, r)) :
    l.length + (ql_insert_cost l i).2 ≤ r.length ∧ r.length ≤ l.length + 1 := by
  induction l generalizing i rc r with
  | nil =>
    rw [ql_insert_nil] at h
    rw [ql_insert_cost_nil]
    split at h
    · simp only [Option.some.injEq, Prod.mk.injEq] at h
      rw [← h.2]
      simp
    · simp only [Option.some.injEq, Prod.mk.injEq] at h
      rw [← h.2]
      simp
  | cons ql next ih =>
    have hb2 := bounded_cons.mp hb
    by_cases h14 : (QL_MAXSIZE : Int) ≤ i
    · rw [ql_insert_descend ql next i x h14] at h
      rw [ql_insert_cost_descend ql next i h14]
      cases hrec : ql_insert next (i - (ql.length : Int)) x with
      | none => simp [hrec] at h
      | some p =>
        obtain ⟨rc1, r1⟩ := p
        simp only [hrec, Option.map_some', Option.some.injEq, Prod.mk.injEq] at h
        have := ih _ _ _ hb2.2 hrec
        rw [← h.2]
        simp only [List.length_cons]
        omega
    · have h14lt : i < (QL_MAXSIZE : Int) := Int.not_le.mp h14
      rcases ql_insert_head_cases ql next i x h14lt hb2.1 with hnone | ⟨h0, h1⟩
      · rw [hnone] at h
        exact absurd h (by simp)
      · have hi : ((i.toNat : Nat) : Int) = i := Int.toNat_of_nonneg h0
        obtain ⟨r0, e1, e2⟩ := ql_insert_in_node_length ql next i.toNat x (by omega)
          (by simp only [QL_MAXSIZE, Nat.cast_ofNat] at *; omega) hb2.1
        rw [hi] at e1 e2
        rw [h] at e1
        simp only [Option.some.injEq, Prod.mk.injEq] at e1
        have hc := (ql_insert_cost_bound (ql :: next) i hb).1
        rw [e1.2, e2]
        simp only [List.length_cons]
        omega

/-! ## Main results (continued) -/

/-- C11: on a chain whose nodes hold at most 14 elements, `ql_set_remove`
returns 1 exactly when `v` occurs in the visited sequence; the visited sequence
of the result is the original one with the first occurrence of `v` removed and
the rest in order (so a strictly ascending sequence stays strictly ascending
and no longer contains `v`); when `v` does not occur it returns 0 and the chain
is unchanged. -/
theorem ql_set_remove_removes_first [DecidableEq α] (l : quicklist α) (v : α)
    (hb : bounded l) :
    ∃ rc r, ql_set_remove l v = some (rc, r) ∧ (rc = 1 ↔ v ∈ visited l) ∧
      visited r = (visited l).erase v ∧
      (v ∈ visited l → rc = 1 ∧ ql_length r = ql_length l - 1) ∧
      (v ∉ visited l → rc = 0 ∧ r = l) ∧
      (∀ R : α → α → Prop, (visited l).Pairwise R → (visited r).Pairwise R) ∧
      ((visited l).Nodup → v ∉ visited r) ∧ bounded r := by
  obtain ⟨rc, r, e1, e2, e3, e4, _⟩ := ql_set_remove_spec l v
  refine ⟨rc, r, e1, ?_, e2, ?_, ?_, ?_, ?_, e4 hb⟩
  · rcases e3 with ⟨a1, a2⟩ | ⟨a1, a2, _⟩
    · exact ⟨fun _ => a2, fun _ => a1⟩
    · refine ⟨fun h => ?_, fun h => absurd h a2⟩
      rw [a1] at h
      exact absurd h (by decide)
  · intro hv
    rcases e3 with ⟨a1, _⟩ | ⟨_, a2, _⟩
    · refine ⟨a1, ?_⟩
      rw [ql_length_eq, ql_length_eq, e2, List.length_erase_of_mem hv]
      have := List.length_pos_of_mem hv
      omega
    · exact absurd hv a2
  · intro hv
    rcases e3 with ⟨_, a2⟩ | ⟨a1, _, a3⟩
    · exact absurd a2 hv
    · exact ⟨a1, a3⟩
  · intro R hR
    rw [e2]
    exact hR.sublist (List.erase_sublist v _)
  · intro hnd
    rw [e2]
    exact hnd.not_mem_erase

theorem ql_set_remove_removes_first_witness :
    bounded [[1, 3, 5], [3, 7]] ∧
    ql_set_remove [[1, 3, 5], [3, 7]] (3 : Nat) = some (1, [[1, 5, 3, 7]]) ∧
    ∃ rc r, ql_set_remove [[1, 3, 5], [3, 7]] (3 : Nat) = some (rc, r) ∧
      (rc = 1 ↔ 3 ∈ visited [[1, 3, 5], [3, 7]]) ∧
      visited r = (visited [[1, 3, 5], [3, 7]]).erase 3 ∧
      (3 ∈ visited [[1, 3, 5], [3, 7]] →
        rc = 1 ∧ ql_length r = ql_length [[1, 3, 5], [3, 7]] - 1) ∧
      (3 ∉ visited [[1, 3, 5], [3, 7]] → rc = 0 ∧ r = [[1, 3, 5], [3, 7]]) ∧
      (∀ R : Nat → Nat → Prop, (visited [[1, 3, 5], [3, 7]]).Pairwise R →
        (visited r).Pairwise R) ∧
      ((visited [[1, 3, 5], [3, 7]]).Nodup → 3 ∉ visited r) ∧ bounded r :=
  ⟨by simp [bounded], by decide,
    ql_set_remove_removes_first [[1, 3, 5], [3, 7]] 3 (by simp [bounded])⟩

/-- C12 (counterexample): with the cursor index `INT_MAX` and stride 1, both
values of type `int` and not negative, the sum `i + stride` that `ql_advance`
computes first overflows `int`: undefined behaviour, not a return of `ERANGE`
with the cursor node set to absent.  (Where the sum wraps to a negative number
the test `i + stride < num_elements` holds and 0 is returned with a negative
index.) -/
theorem ql_advance_overflow_counterexample :
    (0 : Int) ≤ 2147483647 ∧ (2147483647 : Int) ≤ INT_MAX ∧ (0 : Int) ≤ 1 ∧
    ql_length ([[1, 2, 3]] : quicklist Nat) ≤ 2147483647 + 1 ∧
    ql_advance ([[1, 2, 3]] : quicklist Nat) 2147483647 1 = none := by
  decide

/-- C12 (amended): `ql_advance` returns `ERANGE` without touching the cursor
when the node is absent, `i < 0` or `s < 0`, whatever `i + s` is.  Otherwise,
when `i + s` does not exceed `INT_MAX`, it succeeds exactly when `i + s` is
below the number of elements of the chain starting at the node, and then the
new cursor is a node of that chain and an offset `0 ≤ i1 < num_elements` whose
slot holds `ql_get(node, i + s)`; when `i + s` is at or past the end it returns
`ERANGE` and the cursor node is absent. -/
theorem ql_advance_moves_by_stride (l : quicklist α) (i s : Int) :
    ((l = [] ∨ i < 0 ∨ s < 0) → ql_advance l i s = some (ERANGE, l, i)) ∧
    (l ≠ [] → 0 ≤ i → 0 ≤ s → i + s ≤ INT_MAX →
      ((∃ cur i1, ql_advance l i s = some (0, cur, i1)) ↔ i + s < ql_length l) ∧
      (i + s < ql_length l → ∃ pre nd rest i1 e, l = pre ++ nd :: rest ∧
        ql_advance l i s = some (0, nd :: rest, i1) ∧ 0 ≤ i1 ∧ i1 < (nd.length : Int) ∧
        nd[i1.toNat]? = some e ∧ ql_get l (i + s) = some e) ∧
      (ql_length l ≤ i + s → ∃ i1, ql_advance l i s = some (ERANGE, [], i1))) := by
  refine ⟨fun h => ?_, fun _ h0 hs hmax => ?_⟩
  · cases l with
    | nil => rfl
    | cons ql next =>
      rcases h with h | h
      · exact absurd h (by simp)
      · unfold ql_advance
        rw [if_pos h]
  · have hspec := ql_advance_spec l i s h0 hs hmax
    refine ⟨⟨fun h => ?_, fun h => ?_⟩, fun h => ?_, hspec.2⟩
    · by_contra hc
      obtain ⟨i1, e1⟩ := hspec.2 (by omega)
      obtain ⟨cur, i2, e2⟩ := h
      rw [e1] at e2
      simp only [Option.some.injEq, Prod.mk.injEq] at e2
      exact absurd e2.1 (by decide)
    · obtain ⟨pre, nd, rest, i1, _, a2, _⟩ := hspec.1 h
      exact ⟨nd :: rest, i1, a2⟩
    · obtain ⟨pre, nd, rest, i1, a1, a2, a3, a4, a5, _⟩ := hspec.1 h
      obtain ⟨e, he, _⟩ := ql_get_of_lt l (i + s) (by omega) h
      exact ⟨pre, nd, rest, i1, e, a1, a2, a3, a4, by rw [a5, he], he⟩

theorem ql_advance_moves_by_stride_witness :
    ql_advance ([] : quicklist Nat) 2147483647 1 = some (ERANGE, [], 2147483647) ∧
    ql_advance ([[10, 20, 30]] : quicklist Nat) 2147483647 (-1)
      = some (ERANGE, [[10, 20, 30]], 2147483647) ∧
    (1 : Int) + 3 ≤ INT_MAX ∧
    ql_advance ([[10, 20, 30], [40, 50]] : quicklist Nat) 1 3 = some (0, [[40, 50]], 1) ∧
    ql_get ([[10, 20, 30], [40, 50]] : quicklist Nat) (1 + 3) = some 50 ∧
    ((∃ cur i1, ql_advance ([[10, 20, 30], [40, 50]] : quicklist Nat) 1 3 = some (0, cur, i1)) ↔
      (1 : Int) + 3 < ql_length ([[10, 20, 30], [40, 50]] : quicklist Nat)) :=
  ⟨(ql_advance_moves_by_stride ([] : quicklist Nat) 2147483647 1).1 (Or.inl rfl),
    (ql_advance_moves_by_stride ([[10, 20, 30]] : quicklist Nat) 2147483647 (-1)).1
      (Or.inr (Or.inr (by decide))),
    by decide, by decide, by decide,
    ((ql_advance_moves_by_stride ([[10, 20, 30], [40, 50]] : quicklist Nat) 1 3).2
      (by simp) (by decide) (by decide) (by decide)).1⟩

/-- C13 (fails on the code): on the non-empty list `[[1, 2, 3]]` the call
`ql_insert` with index -1 does not return `EINVAL`: there is no test for a
negative index (`ql_delete` has one), the node has room, and `memmove` and the
store run at `elements - 1`.  On the empty list every index but 0 gives
`EINVAL` and index 0 gives the one-element list. -/
theorem ql_insert_negative_index_undefined :
    ql_insert [[1, 2, 3]] (-1) (99 : Nat) = none ∧
    ql_delete [[1, 2, 3]] (-1) = (EINVAL, ([[1, 2, 3]] : quicklist Nat)) ∧
    ql_insert [] (-1) (99 : Nat) = some (EINVAL, []) ∧
    ql_insert [] 5 (99 : Nat) = some (EINVAL, []) ∧
    ql_insert [] 0 (99 : Nat) = some (0, [[99]]) := by
  refine ⟨by simp [ql_insert], by decide, by simp [ql_insert], by simp [ql_insert],
    by simp [ql_insert, ql_push]⟩

/-- C14: `ql_delete` returns `EINVAL` exactly for a negative index; for an index
at or past the length it returns 0; in both cases the chain is unchanged. -/
theorem ql_delete_failure_behaviour (l : quicklist α) (index : Int) :
    ((ql_delete l index).1 = EINVAL ↔ index < 0) ∧
    (ql_length l ≤ index → (ql_delete l index).1 = 0) ∧
    (index < 0 ∨ ql_length l ≤ index → (ql_delete l index).2 = l) := by
  refine ⟨⟨fun h => ?_, fun h => by rw [ql_delete_negative l index h]⟩,
    fun h => by rw [ql_delete_past_end l index h], fun h => ?_⟩
  · by_contra hc
    rw [ql_delete_rc l index (by omega)] at h
    exact absurd h (by decide)
  · rcases h with h | h
    · rw [ql_delete_negative l index h]
    · rw [ql_delete_past_end l index h]

/-- C15: pushing the `n ≥ 1` elements of `xs` onto the empty list gives
`ceil(n / 14)` nodes, each but the last holding exactly 14 elements and the last
holding `n - 14 * (ceil(n / 14) - 1)` elements (between 1 and 14); the length is
`n`, `ql_get` at `i` is the element pushed as number `i + 1`, and the density
invariant holds. -/
theorem push_all_shape (xs : List α) (hne : xs ≠ []) :
    (push_all [] xs).length = (xs.length + 13) / 14 ∧
    (∀ k, k + 1 < (push_all [] xs).length →
      ((push_all [] xs)[k]?).map List.length = some 14) ∧
    ((push_all [] xs).getLast?.map List.length
      = some (xs.length - 14 * ((xs.length + 13) / 14 - 1))) ∧
    1 ≤ xs.length - 14 * ((xs.length + 13) / 14 - 1) ∧
    xs.length - 14 * ((xs.length + 13) / 14 - 1) ≤ 14 ∧
    ql_length (push_all [] xs) = (xs.length : Int) ∧
    (∀ i : Int, 0 ≤ i → i < (xs.length : Int) → ql_get (push_all [] xs) i = xs[i.toNat]?) ∧
    density (push_all [] xs) := by
  have hp : packed (push_all [] xs) := push_all_packed [] xs (Or.inr ⟨rfl, hne⟩)
  have hv : visited (push_all [] xs) = xs := by
    rw [push_all_visited]
    rfl
  obtain ⟨m, h1, h2, h3, h4, h5, h6⟩ := packed_length _ hp
  rw [hv] at h4
  have hlen : (push_all [] xs).length = (xs.length + 13) / 14 := by omega
  have hm : m = xs.length - 14 * ((xs.length + 13) / 14 - 1) := by omega
  refine ⟨hlen, h6, by rw [h3, hm], by omega, by omega, by rw [ql_length_eq, hv], ?_,
    packed_density _ hp⟩
  intro i h0 _
  rw [ql_get_eq, if_pos h0, hv]

theorem push_all_shape_witness :
    push_all [] [1, 2, 3, 4, 5, 6, 7, 8, 9, 10, 11, 12, 13, 14, 15, 16, 17, 18, 19, 20]
      = [[1, 2, 3, 4, 5, 6, 7, 8, 9, 10, 11, 12, 13, 14], [15, 16, 17, 18, 19, 20]] ∧
    ql_get (push_all [] [1, 2, 3, 4, 5, 6, 7, 8, 9, 10, 11, 12, 13, 14, 15, 16, 17, 18, 19, 20])
      19 = some 20 ∧
    (push_all [] [1, 2, 3, 4, 5, 6, 7, 8, 9, 10, 11, 12, 13, 14, 15, 16, 17, 18, 19, 20]).length
      = (20 + 13) / 14 :=
  ⟨by decide, by decide,
    (push_all_shape [1, 2, 3, 4, 5, 6, 7, 8, 9, 10, 11, 12, 13, 14, 15, 16, 17, 18, 19, 20]
      (by simp)).1⟩

/-- C16: on every list reachable from the empty list by successful calls of
`ql_push`, `ql_insert`, `ql_delete`, `ql_set_insert` and `ql_set_remove`, every
node holds at least 1 and at most 14 elements, and `ql_empty` is true exactly
when `ql_length` is 0. -/
theorem reachable_node_sizes [LinearOrder α] (l : quicklist α) (h : Reachable l) :
    (∀ nd ∈ l, 1 ≤ nd.length ∧ nd.length ≤ QL_MAXSIZE) ∧
    (ql_empty l = true ↔ ql_length l = 0) := by
  obtain ⟨hn, hb⟩ := h.sizes
  refine ⟨fun nd hnd => ⟨List.length_pos.mpr (hn nd hnd), hb nd hnd⟩, ?_⟩
  cases l with
  | nil => simp [ql_empty, ql_length]
  | cons ql next =>
    have hpos := List.length_pos.mpr (hn ql (List.mem_cons_self _ _))
    have hnn := ql_length_nonneg next
    simp only [ql_empty, List.isEmpty_cons, ql_length]
    constructor
    · intro hc
      exact absurd hc (by decide)
    · intro hc
      omega

theorem reachable_node_sizes_witness :
    Reachable (ql_delete (ql_push (ql_push ([] : quicklist Nat) 5).1 7).1 0).2 ∧
    (ql_delete (ql_push (ql_push ([] : quicklist Nat) 5).1 7).1 0).2 = [[7]] ∧
    ((∀ nd ∈ (ql_delete (ql_push (ql_push ([] : quicklist Nat) 5).1 7).1 0).2,
        1 ≤ nd.length ∧ nd.length ≤ QL_MAXSIZE) ∧
      (ql_empty (ql_delete (ql_push (ql_push ([] : quicklist Nat) 5).1 7).1 0).2 = true ↔
        ql_length (ql_delete (ql_push (ql_push ([] : quicklist Nat) 5).1 7).1 0).2 = 0)) :=
  ⟨Reachable.delete _ 0 (Reachable.push _ 7 (Reachable.push _ 5 Reachable.empty)) (by decide),
    by decide,
    reachable_node_sizes _
      (Reachable.delete _ 0 (Reachable.push _ 7 (Reachable.push _ 5 Reachable.empty))
        (by decide))⟩

/-- C17: on a chain whose nodes hold at most 14 elements and an index
`0 ≤ i < ql_length`, `ql_replace` returns the element `ql_get` returned before
the call; afterwards `ql_get` at `i` is `v`, `ql_get` at every other index is
unchanged, and the number of nodes and every node's count are unchanged. -/
theorem ql_replace_swaps_one_slot (l : quicklist α) (i : Int) (v : α) (_hb : bounded l)
    (h0 : 0 ≤ i) (h1 : i < ql_length l) :
    ∃ orig r, ql_replace l i v = some (orig, r) ∧ ql_get l i = some orig ∧
      ql_get r i = some v ∧ (∀ j : Int, j ≠ i → ql_get r j = ql_get l j) ∧
      r.map List.length = l.map List.length ∧ ql_length r = ql_length l := by
  obtain ⟨orig, r, e1, e2, e3, e4⟩ := ql_replace_spec l i v h0 h1
  have hlt : i.toNat < (visited l).length := by
    rw [ql_length_eq] at h1
    omega
  refine ⟨orig, r, e1, e2, ?_, ?_, e4, ?_⟩
  · rw [ql_get_eq, if_pos h0, e3, List.getElem?_set_self hlt]
  · intro j hj
    rw [ql_get_eq, ql_get_eq, e3]
    split
    · rw [List.getElem?_set_ne (by omega)]
    · rfl
  · rw [ql_length_eq, ql_length_eq, e3, List.length_set]

theorem ql_replace_swaps_one_slot_witness :
    bounded [[10, 20, 30], [40, 50]] ∧
    ql_replace [[10, 20, 30], [40, 50]] 3 (99 : Nat) = some (40, [[10, 20, 30], [99, 50]]) ∧
    ∃ orig r, ql_replace [[10, 20, 30], [40, 50]] 3 (99 : Nat) = some (orig, r) ∧
      ql_get [[10, 20, 30], [40, 50]] 3 = some orig ∧
      ql_get r 3 = some 99 ∧
      (∀ j : Int, j ≠ 3 → ql_get r j = ql_get [[10, 20, 30], [40, 50]] j) ∧
      r.map List.length = [[10, 20, 30], [40, 50]].map List.length ∧
      ql_length r = ql_length [[10, 20, 30], [40, 50]] :=
  ⟨by simp [bounded], by decide,
    ql_replace_swaps_one_slot [[10, 20, 30], [40, 50]] 3 99 (by simp [bounded]) (by decide)
      (by decide)⟩

/-- C18 (counterexample): on the chain `[[1, 2, 3], [4]]` the head node is not
full, yet `ql_push` walks past it and stores the element in the last node, where
the rule as specified stores it in the head node; and on a single full node
`ql_push` allocates a second node although the list is not empty. -/
theorem ql_push_walk_counterexample :
    ql_push [[1, 2, 3], [4]] (9 : Nat) = ([[1, 2, 3], [4, 9]], [[4, 9]]) ∧
    push_as_specified [[1, 2, 3], [4]] (9 : Nat) = ([[1, 2, 3, 9], [4]], [[1, 2, 3, 9], [4]]) ∧
    ql_push [[1, 2, 3], [4]] (9 : Nat) ≠ push_as_specified [[1, 2, 3], [4]] (9 : Nat) ∧
    ql_push [[1, 2, 3, 4, 5, 6, 7, 8, 9, 10, 11, 12, 13, 14]] (15 : Nat)
      = ([[1, 2, 3, 4, 5, 6, 7, 8, 9, 10, 11, 12, 13, 14], [15]], [[15]]) := by
  decide

/-- C18 (amended): for every non-empty chain, `ql_push` walks from the head
while the current node has a successor or is full.  So when the last node is
not full the new element is stored in it and it is the returned node; when the
last node is full a new node holding the element is linked after it and
returned.  The number of nodes grows exactly when the last node is full. -/
theorem ql_push_walks_to_last (l : quicklist α) (x : α) (hne : l ≠ []) :
    ∃ init last, l = init ++ [last] ∧
      (last.length ≠ QL_MAXSIZE →
        ql_push l x = (init ++ [last ++ [x]], [last ++ [x]])) ∧
      (last.length = QL_MAXSIZE → ql_push l x = (l ++ [[x]], [[x]])) ∧
      ((ql_push l x).1.length = l.length + 1 ↔ last.length = QL_MAXSIZE) := by
  refine ⟨l.dropLast, l.getLast hne, (List.dropLast_append_getLast hne).symm, ?_, ?_, ?_⟩
  · intro h
    conv_lhs => rw [← List.dropLast_append_getLast hne]
    rw [ql_push_last, if_neg h]
  · intro h
    conv_lhs => rw [← List.dropLast_append_getLast hne]
    rw [ql_push_last, if_pos h]
    conv_rhs => rw [← List.dropLast_append_getLast hne]
    simp
  · conv_lhs => rw [← List.dropLast_append_getLast hne]
    rw [ql_push_last]
    by_cases h : (l.getLast hne).length = QL_MAXSIZE
    · rw [if_pos h]
      simp only [List.length_append, List.length_cons, List.length_nil, h, iff_true]
    · rw [if_neg h]
      simp only [List.length_append, List.length_cons, List.length_nil, h, iff_false]
      omega

theorem ql_push_walks_to_last_witness :
    ([[1, 2, 3], [4]] : quicklist Nat) ≠ [] ∧
    ∃ init last, ([[1, 2, 3], [4]] : quicklist Nat) = init ++ [last] ∧
      (last.length ≠ QL_MAXSIZE →
        ql_push [[1, 2, 3], [4]] 9 = (init ++ [last ++ [9]], [last ++ [9]])) ∧
      (last.length = QL_MAXSIZE →
        ql_push [[1, 2, 3], [4]] 9 = ([[1, 2, 3], [4]] ++ [[9]], [[9]])) ∧
      ((ql_push [[1, 2, 3], [4]] 9).1.length = ([[1, 2, 3], [4]] : quicklist Nat).length + 1 ↔
        last.length = QL_MAXSIZE) :=
  ⟨by simp, ql_push_walks_to_last [[1, 2, 3], [4]] 9 (by simp)⟩

/-- C19: when the head node is full and `0 ≤ i ≤ 13`, `ql_insert` succeeds.  The
head is split into its first 7 and its last 7 elements, followed by the
unchanged successor chain, and the call is retried on that chain: for `i ≤ 7`
on the first half at offset `i`, otherwise on the new node at offset `i - 7`.
The two nodes then hold (8, 7) or (7, 8) elements and the visited sequence is
the original one with `x` inserted at position `i`. -/
theorem ql_insert_splits_full_head (ql : List α) (next : quicklist α) (i : Int) (x : α)
    (hfull : ql.length = QL_MAXSIZE) (h0 : 0 ≤ i) (h13 : i ≤ 13) :
    ∃ a b, ql_insert (ql :: next) i x = some (0, a :: b :: next) ∧
      (i ≤ 7 →
        ql_insert (ql :: next) i x = ql_insert (ql.take 7 :: ql.drop 7 :: next) i x ∧
        a = (ql.take 7).take i.toNat ++ x :: (ql.take 7).drop i.toNat ∧ b = ql.drop 7 ∧
        a.length = 8 ∧ b.length = 7) ∧
      (7 < i →
        ql_insert (ql :: next) i x
          = (ql_insert (ql.drop 7 :: next) (i - 7) x).map (fun r => (r.1, ql.take 7 :: r.2)) ∧
        a = ql.take 7 ∧
        b = (ql.drop 7).take (i - 7).toNat ++ x :: (ql.drop 7).drop (i - 7).toNat ∧
        a.length = 7 ∧ b.length = 8) ∧
      visited (a :: b :: next)
        = (visited (ql :: next)).take i.toNat ++ x :: (visited (ql :: next)).drop i.toNat := by
  have h14 : i < (QL_MAXSIZE : Int) := by
    simp only [QL_MAXSIZE, Nat.cast_ofNat]
    omega
  have hnr : ¬ ql.length < QL_MAXSIZE := by omega
  have hq : ql.length = 14 := hfull
  have e := ql_insert_full ql next i x h14 hfull
  simp only [QL_LIMIT, Nat.cast_ofNat] at e
  by_cases hi : i ≤ 7
  · rw [if_pos hi, if_pos h0] at e
    refine ⟨_, _, e, fun _ => ⟨?_, rfl, rfl, ?_, ?_⟩, fun h => absurd hi (by omega), ?_⟩
    · exact ql_insert_split_left ql next i x h14 hnr
        (by simp only [QL_LIMIT, Nat.cast_ofNat]; exact hi)
    · simp only [List.length_append, List.length_take, List.length_cons, List.length_drop]
      omega
    · simp only [List.length_drop]
      omega
    · exact ql_insert_left_visited ql next i.toNat x (by omega) (by omega)
  · rw [if_neg hi] at e
    have hsub : (i - 7).toNat = i.toNat - 7 := by omega
    refine ⟨_, _, e, fun h => absurd h hi, fun _ => ⟨?_, rfl, rfl, ?_, ?_⟩, ?_⟩
    · exact ql_insert_split_right ql next i x h14 hnr
        (by simp only [QL_LIMIT, Nat.cast_ofNat]; exact hi)
    · simp only [List.length_take]
      omega
    · simp only [List.length_append, List.length_take, List.length_cons, List.length_drop]
      omega
    · rw [hsub]
      exact ql_insert_right_visited ql next i.toNat x (by omega) (by omega)

theorem ql_insert_splits_full_head_witness :
    ql_insert [[0, 1, 2, 3, 4, 5, 6, 7, 8, 9, 10, 11, 12, 13], [14, 15]] 9 (99 : Nat)
      = some (0, [[0, 1, 2, 3, 4, 5, 6], [7, 8, 99, 9, 10, 11, 12, 13], [14, 15]]) ∧
    ∃ a b, ql_insert [[0, 1, 2, 3, 4, 5, 6, 7, 8, 9, 10, 11, 12, 13], [14, 15]] 9 (99 : Nat)
        = some (0, a :: b :: [[14, 15]]) ∧ a.length + b.length = 15 :=
  ⟨by simp [ql_insert],
    by
      obtain ⟨a, b, h1, _, h3, _⟩ := ql_insert_splits_full_head
        [0, 1, 2, 3, 4, 5, 6, 7, 8, 9, 10, 11, 12, 13] [[14, 15]] 9 (99 : Nat) (by rfl)
        (by decide) (by decide)
      have := h3 (by decide)
      exact ⟨a, b, h1, by omega⟩⟩

/-- C20: on a chain whose nodes hold at most 14 elements and an index `i ≥ 0`,
a call of `ql_insert` makes at most one more invocation than the chain has
nodes and enters the split branch at most once; when it returns, the resulting
chain has at most one node more than the original and none fewer, a split adds
a node, and with `EINVAL` the chain is unchanged. -/
theorem ql_insert_at_most_one_split (l : quicklist α) (i : Int) (x : α) (hb : bounded l)
    (_h0 : 0 ≤ i) :
    (ql_insert_cost l i).2 ≤ 1 ∧ (ql_insert_cost l i).1 ≤ l.length + 1 ∧
    ∀ rc r, ql_insert l i x = some (rc, r) →
      (rc = 0 ∨ rc = EINVAL) ∧ l.length + (ql_insert_cost l i).2 ≤ r.length ∧
      r.length ≤ l.length + 1 ∧ (rc = EINVAL → r = l ∧ (ql_insert_cost l i).2 = 0) := by
  have hc := ql_insert_cost_bound l i hb
  refine ⟨hc.1, hc.2, fun rc r h => ?_⟩
  have hn := ql_insert_nodes l i x rc r hb h
  refine ⟨?_, hn.1, hn.2, fun hrc => ?_⟩
  · rcases ql_insert_returns l i x rc r hb h with h1 | h1
    · exact Or.inl h1.1
    · exact Or.inr h1.1
  · rcases ql_insert_returns l i x rc r hb h with h1 | h1
    · rw [h1.1] at hrc
      exact absurd hrc (by decide)
    · refine ⟨h1.2.1, ?_⟩
      have := hn.1
      rw [h1.2.1] at this
      omega

theorem ql_insert_at_most_one_split_witness :
    bounded [[0, 1, 2, 3, 4, 5, 6, 7, 8, 9, 10, 11, 12, 13], [14, 15]] ∧
    ql_insert_cost [[0, 1, 2, 3, 4, 5, 6, 7, 8, 9, 10, 11, 12, 13], [14, 15]] 3 = (2, 1) ∧
    ql_insert_cost [[0, 1, 2, 3, 4, 5, 6, 7, 8, 9, 10, 11, 12, 13], [14, 15]] 14 = (2, 0) ∧
    (ql_insert_cost [[0, 1, 2, 3, 4, 5, 6, 7, 8, 9, 10, 11, 12, 13], [14, 15]] 3).2 ≤ 1 :=
  ⟨by simp [bounded], by simp [ql_insert_cost], by simp [ql_insert_cost],
    (ql_insert_at_most_one_split [[0, 1, 2, 3, 4, 5, 6, 7, 8, 9, 10, 11, 12, 13], [14, 15]] 3
      (99 : Nat) (by simp [bounded]) (by decide)).1⟩

end Quicklist
